/-
Verification of the avocado-vt resource/pool/image lifecycle and topology
engine against its specification.

The development shallowly embeds the relevant python code:
  * virttest/vt_imgr/virtual_images/qemu/qemu_virtual_image.py
    (`_QemuVirImage`: add_image_object, remove_image_object, create,
    destroy, destroy_object, qemu_img_rebase)
  * virttest/vt_imgr/virtual_images/qemu/qemu_image.py (`_QemuImage`)
  * virttest/vt_resmgr/resources/pool.py (`_ResourcePool.update_resource`,
    `_ResourcePool.get_resource_info`)
  * virttest/vt_imgr/vt_imgr.py (`_VTImageManager.get_image_info`)

Python dicts that preserve insertion order are embedded as association
lists `List (String × α)`; exceptions are embedded as `Except` values that
carry the state at raise time (python exceptions do not roll back earlier
in-place mutations).  Remote agent calls are modelled as oracle arguments
`(status, out)`: status 0 is success and any other value makes the caller
raise carrying `out`.
-/
import Mathlib

namespace AvocadoVT

/-! ## Ordered-dict helpers

Insertion-ordered python dicts become association lists.  `dictSet`
implements `d[k] = v` (update in place keeps the position, new key is
appended), `dictEraseKey` implements the removal part of `d.pop(k)`. -/

def dictSet (d : List (String × α)) (k : String) (v : α) : List (String × α) :=
  match d with
  | [] => [(k, v)]
  | (k', v') :: rest => if k' = k then (k, v) :: rest else (k', v') :: dictSet rest k v

def dictEraseKey (d : List (String × α)) (k : String) : List (String × α) :=
  match d with
  | [] => []
  | (k', v) :: rest => if k' = k then rest else (k', v) :: dictEraseKey rest k

theorem lookup_dictSet_self (d : List (String × α)) (k : String) (v : α) :
    (dictSet d k v).lookup k = some v := by
  induction d with
  | nil => simp [dictSet, List.lookup]
  | cons p rest ih =>
    obtain ⟨k', v'⟩ := p
    by_cases hp : k' = k
    · simp [dictSet, hp, List.lookup]
    · have : (k == k') = false := by
        simp only [beq_eq_false_iff_ne]
        exact fun hh => hp hh.symm
      simp [dictSet, hp, List.lookup, this, ih]

theorem lookup_dictSet_other (d : List (String × α)) (k u : String) (v : α)
    (h : u ≠ k) : (dictSet d k v).lookup u = d.lookup u := by
  have hne : (u == k) = false := by simp [h]
  induction d with
  | nil => simp [dictSet, List.lookup, hne]
  | cons p rest ih =>
    obtain ⟨k', v'⟩ := p
    by_cases hp : k' = k
    · have : (u == k) = false := by simp [h]
      subst hp
      simp [dictSet, List.lookup, this]
    · simp only [dictSet, if_neg hp, List.lookup]
      by_cases hu : (u == k')
      · simp [hu]
      · simp [hu, ih]

theorem lookup_dictEraseKey_other (d : List (String × α)) (k u : String)
    (h : u ≠ k) : (dictEraseKey d k).lookup u = d.lookup u := by
  have hne : (u == k) = false := by simp [h]
  induction d with
  | nil => simp [dictEraseKey]
  | cons p rest ih =>
    obtain ⟨k', v'⟩ := p
    by_cases hp : k' = k
    · subst hp
      simp [dictEraseKey, List.lookup, hne]
    · simp only [dictEraseKey, if_neg hp, List.lookup]
      by_cases hu : (u == k')
      · simp [hu]
      · simp [hu, ih]

/-! ## Python errors -/

inductive PyError where
  | valueError (msg : String)
  | runtimeError (msg : String)
  | keyError (msg : String)
  | indexError (msg : String)
  | typeError (msg : String)
  | attributeError (msg : String)
  | exn (msg : String)
  deriving DecidableEq

/-! ## The qemu virtual image (`_QemuVirImage`)

`image_meta["topology"]` is a one-key dict, either `{"none": [name]}` or
`{"chain": [names...]}`; the transitions move the (single) list between the
two keys, so a tagged value is a faithful embedding.

The lower-level image base class (`virttest/vt_imgr/virtual_images/image.py`)
is not under src/: only its qemu subclass `_QemuImage` is.  A lower-level
image object is embedded as `LayerState` below. -/

inductive Topology where
  | tnone (names : List String)
  | tchain (names : List String)
  deriving DecidableEq

structure LayerConfig where
  format : String
  backing : Option String
  deriving DecidableEq

/-- Cartesian parameters of a lower-level image, as far as the embedded
operations read them: the format selecting the qemu image class and the
nodes its volume ends up bound to. -/
structure LayerParams where
  format : String
  accessNodes : List String
  deriving DecidableEq

/-- Modelled from the spec: the lower-level `_Image` base class
(virtual_images/image.py) is not under src/, only `_QemuImage` is.  Per
spec section 3 and 4.2 a layer is backed by exactly one volume resource;
`volumeAllocated` mirrors the volume's `allocated` flag and `accessNodes`
mirrors the nodes the volume is bound to (`image_access_nodes`).  The
layer's config dict is the same object as the entry in the owning image's
`spec.images` (python aliasing), so it lives in `specImages` only. -/
structure LayerState where
  volumeAllocated : Bool
  accessNodes : List String
  deriving DecidableEq

structure QemuVirImage where
  /-- `image_meta["name"]` -/
  name : String
  /-- `image_meta["topology"]` -/
  topology : Topology
  /-- `image_spec["images"]`: layer name to layer config (ordered dict) -/
  specImages : List (String × LayerConfig)
  /-- `self.images`: layer name to live layer object (ordered dict) -/
  images : List (String × LayerState)
  deriving DecidableEq

namespace QemuVirImage

/-- `_QemuVirImage.image_names`: the list stored under the topology key. -/
def image_names (img : QemuVirImage) : List String :=
  match img.topology with
  | .tnone names => names
  | .tchain names => names

/-- `_QemuVirImage.image_access_nodes`: the union (as a set) of the layers'
access nodes; embedded with first-occurrence order, which is irrelevant to
every use (subset tests and non-emptiness). -/
def image_access_nodes (img : QemuVirImage) : List String :=
  (img.images.foldl (fun acc p => acc ++ p.2.accessNodes) []).dedup

/-- `_QemuImage.define_config_legacy` via `define_image_config`: a fresh
layer config with `backing = None`. -/
def define_image_config (params : LayerParams) : LayerConfig :=
  { format := params.format, backing := none }

structure AddArgs where
  target : String
  target_params : LayerParams
  backing_chain : Bool
  nodes : Option (List String)
  deriving DecidableEq

/-- `node_names = arguments.get("nodes") or self.image_access_nodes`
(python `or`: `None` and the empty list fall back to the image's nodes). -/
def add_node_names (img : QemuVirImage) (a : AddArgs) : List String :=
  match a.nodes with
  | some ns => if ns.isEmpty then image_access_nodes img else ns
  | none => image_access_nodes img

/-- `_QemuVirImage.add_image_object`.  The final two statements
(`self.image_spec["images"][target] = config` and
`self.images[target] = self._create_image_object(target)`) are embedded by
`dictSet`; `_create_image_object` builds the layer object from the stored
config and creates + binds its volume object (the new layer starts
unallocated, spec section 4.1/4.2). -/
def add_image_object (img : QemuVirImage) (a : AddArgs) :
    Except (PyError × QemuVirImage) QemuVirImage :=
  let node_names := add_node_names img a
  if (img.images.lookup a.target).isSome then
    .error (.valueError (a.target ++ " already existed"), img)
  else if ¬ (node_names.all (fun n => n ∈ image_access_nodes img)) then
    .error (.valueError "node names should be a subset of the image access nodes", img)
  else
    let config := define_image_config a.target_params
    if a.backing_chain then
      match (image_names img).getLast? with
      | none => .error (.indexError "list index out of range", img)
      | some top =>
        let config := { config with backing := some top }
        -- self.image_names.append(target); self.image_meta["name"] = target;
        -- pop "none" into "chain" (the list object was already appended to)
        let img' := { img with
          topology := .tchain (image_names img ++ [a.target]),
          name := a.target }
        .ok { img' with
          specImages := dictSet img'.specImages a.target config,
          images := dictSet img'.images a.target
            { volumeAllocated := false, accessNodes := a.target_params.accessNodes } }
    else
      .ok { img with
        specImages := dictSet img.specImages a.target config,
        images := dictSet img.images a.target
          { volumeAllocated := false, accessNodes := a.target_params.accessNodes } }

structure RemoveArgs where
  target : String
  deriving DecidableEq

/-- `self.image_names.remove(target)` mutates the list held under whichever
key the topology dict currently has; this helper rebuilds the topology with
the shortened list under the same key. -/
def set_topology_names (t : Topology) (ns : List String) : Topology :=
  match t with
  | .tnone _ => .tnone ns
  | .tchain _ => .tchain ns

/-- Tail of `_QemuVirImage.remove_image_object` after the topology checks:
pop the layer, reject (too late) if its volume is still allocated, destroy
the layer object and update topology/name.  `self.images.pop(target)`
happens before the `volume_allocated` test, so the failing call has already
dropped the layer from the table.  Popping `self.images` leaves
`self.image_names` unchanged, so the second membership test reads the
original topology. -/
def remove_commit (img : QemuVirImage) (target : String) :
    Except (PyError × QemuVirImage) QemuVirImage :=
  match img.images.lookup target with
  | none => .error (.keyError target, img)
  | some layer =>
    let images2 := dictEraseKey img.images target
    if layer.volumeAllocated then
      .error (.runtimeError ("The resource of " ++ target ++ " isn't released yet"),
        { img with images := images2 })
    else
      -- image.destroy_object(): unbind and destroy the volume object
      -- (resource-manager side; no field of the virtual image changes)
      if target ∈ image_names img then
        let erased := (image_names img).erase target
        let t1 := set_topology_names img.topology erased
        match erased.getLast? with
        | none =>
          -- python: self.image_meta["name"] = self.image_names[-1] on the
          -- already-shortened list raises IndexError
          .error (.indexError "list index out of range",
            { img with images := images2, topology := t1 })
        | some newTop =>
          if erased.length < 2 then
            -- topology["none"] = topology.pop("chain"): KeyError unless the
            -- topology is a chain (it always is when target was on it, the
            -- "none" case raised in remove_image_object before the pop)
            match t1 with
            | .tchain ns2 =>
              .ok { img with images := images2, name := newTop,
                             topology := .tnone ns2 }
            | .tnone _ =>
              .error (.keyError "chain",
                { img with images := images2, name := newTop, topology := t1 })
          else
            .ok { img with images := images2, name := newTop, topology := t1 }
      else
        .ok { img with images := images2 }

/-- `_QemuVirImage.remove_image_object`. -/
def remove_image_object (img : QemuVirImage) (a : RemoveArgs) :
    Except (PyError × QemuVirImage) QemuVirImage :=
  let target := a.target
  if (img.images.lookup target).isNone then
    .error (.valueError (target ++ " does not exist"), img)
  else if img.images.length = 1 then
    .error (.valueError ("Cannot remove " ++ target ++
      " for a qemu image must have at least one lower-level image"), img)
  else
    if target ∈ image_names img then
      match img.topology with
      | .tchain ns =>
        -- "chain" in topology and target != self.image_names[-1]
        match ns.getLast? with
        | none => .error (.indexError "list index out of range", img)
        | some top =>
          if target ≠ top then
            .error (.valueError "Only the top virt image in topology can be removed", img)
          else
            remove_commit img target
      | .tnone _ =>
        .error (.valueError ("Removing " ++ target ++
          " in topology can cause an unknown state of the image"), img)
    else
      remove_commit img target

structure CreateArgs where
  target : Option String
  deriving DecidableEq

/-- The allocation loop of `_QemuVirImage.create`:
`for image_tag in image_tags: self.images[image_tag].create(arguments)`.
`_QemuImage.create` is `self.allocate_volume(arguments)`; modelled from the
spec (section 4.2, the concrete volume handlers are not under src/):
allocate marks the volume `allocated`. -/
def create_loop (img : QemuVirImage) : List String →
    Except (PyError × QemuVirImage) QemuVirImage
  | [] => .ok img
  | tag :: rest =>
    match img.images.lookup tag with
    | none => .error (.keyError tag, img)
    | some layer =>
      create_loop
        { img with images := dictSet img.images tag { layer with volumeAllocated := true } }
        rest

/-- `[target] if target else self.image_names` (python truthiness: `None`
and the empty string select the whole chain). -/
def create_targets (img : QemuVirImage) (target : Option String) : List String :=
  match target with
  | some t => if t = "" then image_names img else [t]
  | none => image_names img

/-- `_QemuVirImage.create` up to (excluding) the remote
`node.proxy.image.update_image(..., {"create": ...})` call. -/
def create_phase (img : QemuVirImage) (a : CreateArgs) :
    Except (PyError × QemuVirImage) QemuVirImage :=
  -- node_name = self.image_access_nodes[0]
  match (image_access_nodes img).head? with
  | none => .error (.indexError "list index out of range", img)
  | some _ =>
    match a.target with
    | some t =>
      if t ∈ image_names img then
        -- if target != self.image_names[-1]: raise
        match (image_names img).getLast? with
        | none => .error (.indexError "list index out of range", img)
        | some top =>
          if t ≠ top then
            .error (.valueError "Only the top virt image in topology can be created", img)
          else
            create_loop img (create_targets img a.target)
      else
        create_loop img (create_targets img a.target)
    | none => create_loop img (create_targets img a.target)

/-- `_QemuVirImage.create`: allocate the targeted layers, then issue the
remote per-node create; a non-zero remote status raises carrying the
remote `out` text, after the layers were already allocated. -/
def create (img : QemuVirImage) (a : CreateArgs) (remote : Nat × String) :
    Except (PyError × QemuVirImage) QemuVirImage :=
  match create_phase img a with
  | .error e => .error e
  | .ok st =>
    if remote.1 ≠ 0 then .error (.exn remote.2, st) else .ok st

structure DestroyArgs where
  target : Option String
  deriving DecidableEq

/-- The release loop of `_QemuVirImage.destroy`:
`self.images[image_tag].destroy(arguments)`, i.e. `release_volume`;
modelled from the spec (section 4.2): release clears `allocated`. -/
def destroy_loop (img : QemuVirImage) : List String →
    Except (PyError × QemuVirImage) QemuVirImage
  | [] => .ok img
  | tag :: rest =>
    match img.images.lookup tag with
    | none => .error (.keyError tag, img)
    | some layer =>
      destroy_loop
        { img with images := dictSet img.images tag { layer with volumeAllocated := false } }
        rest

/-- `[target] if target else list(self.images.keys())`. -/
def destroy_targets (img : QemuVirImage) (target : Option String) : List String :=
  match target with
  | some t => if t = "" then img.images.map Prod.fst else [t]
  | none => img.images.map Prod.fst

/-- `_QemuVirImage.destroy`: release the storage of the targeted layers;
no remote call and no layer-object teardown. -/
def destroy (img : QemuVirImage) (a : DestroyArgs) :
    Except (PyError × QemuVirImage) QemuVirImage :=
  match a.target with
  | some t =>
    if t ∈ image_names img then
      match (image_names img).getLast? with
      | none => .error (.indexError "list index out of range", img)
      | some top =>
        if t ≠ top then
          .error (.valueError "Only the top virt image in topology can be destroyed", img)
        else
          destroy_loop img (destroy_targets img a.target)
    else
      destroy_loop img (destroy_targets img a.target)
  | none => destroy_loop img (destroy_targets img a.target)

/-- `_QemuVirImage.destroy_image_object`: `image = self.images.pop(image_name)`
followed by `image.destroy_object()` (which unbinds and destroys the layer's
volume object on the resource-manager side). -/
def destroy_image_object (img : QemuVirImage) (image_name : String) :
    Except (PyError × QemuVirImage) QemuVirImage :=
  match img.images.lookup image_name with
  | none => .error (.keyError image_name, img)
  | some _ => .ok { img with images := dictEraseKey img.images image_name }

def destroy_object_loop (img : QemuVirImage) : List String →
    Except (PyError × QemuVirImage) QemuVirImage
  | [] => .ok img
  | n :: rest =>
    match destroy_image_object img n with
    | .error e => .error e
    | .ok st => destroy_object_loop st rest

/-- `_QemuVirImage.destroy_object`.  The first loop runs over
`self.image_names[::-1]` (a copy of the topology list).  The second loop,
`for image_name in self.images: self.destroy_image_object(image_name)`,
iterates the ordered dict while popping from it: CPython's dict iterator
raises `RuntimeError` on the `next` following any size change, so the loop
finishes only when the dict was already empty; otherwise it pops exactly
the first remaining key and then raises. -/
def destroy_object (img : QemuVirImage) :
    Except (PyError × QemuVirImage) QemuVirImage :=
  match destroy_object_loop img (image_names img).reverse with
  | .error e => .error e
  | .ok st =>
    match st.images with
    | [] => .ok st
    | (k, _) :: _ =>
      match destroy_image_object st k with
      | .error e => .error e
      | .ok st' => .error (.runtimeError "OrderedDict mutated during iteration", st')

structure RebaseArgs where
  target : String
  target_params : LayerParams
  nodes : Option (List String)
  deriving DecidableEq

/-- `_QemuVirImage.qemu_img_rebase`: add the target as a (not yet chained)
layer, create its storage, ask the remote node to rebase, then append the
target on top of the chain and point its config at the old top.  The two
remote calls (inside `create` and the rebase itself) are oracles. -/
def qemu_img_rebase (img : QemuVirImage) (a : RebaseArgs)
    (remoteCreate remoteRebase : Nat × String) :
    Except (PyError × QemuVirImage) QemuVirImage :=
  -- backing = self.image_names[-1]
  match (image_names img).getLast? with
  | none => .error (.indexError "list index out of range", img)
  | some backing =>
    match add_image_object img
        { target := a.target, target_params := a.target_params,
          backing_chain := false, nodes := a.nodes } with
    | .error e => .error e
    | .ok st₁ =>
      match create st₁ { target := some a.target } remoteCreate with
      | .error e => .error e
      | .ok st₂ =>
        if remoteRebase.1 ≠ 0 then
          .error (.exn remoteRebase.2, st₂)
        else
          -- self.image_meta["name"] = target; self.image_names.append(target);
          -- pop "none" into "chain"; config["spec"]["backing"] = backing
          let st₃ := { st₂ with
            name := a.target,
            topology := .tchain (image_names st₂ ++ [a.target]) }
          match st₃.specImages.lookup a.target with
          | none => .error (.keyError a.target, st₃)
          | some cfg =>
            .ok { st₃ with
              specImages := dictSet st₃.specImages a.target { cfg with backing := some backing } }

/-! ## Topology consistency -/

/-- Consistency of the topology tag with the layers *named on the topology*:
the `none` tag carries exactly one name, the `chain` tag carries at least
two, and the image's `name` is the last (top) name of the list. -/
def topoConsistent (img : QemuVirImage) : Bool :=
  (match img.topology with
   | .tnone ns => ns.length == 1
   | .tchain ns => decide (2 ≤ ns.length)) &&
  ((image_names img).getLast? == some img.name)

def TopoInv (img : QemuVirImage) : Prop := topoConsistent img = true

instance (img : QemuVirImage) : Decidable (TopoInv img) :=
  inferInstanceAs (Decidable (topoConsistent img = true))

theorem topoInv_names_ne_nil (img : QemuVirImage) (h : TopoInv img) :
    image_names img ≠ [] := by
  unfold TopoInv topoConsistent at h
  simp only [Bool.and_eq_true, beq_iff_eq] at h
  intro hnil
  rw [hnil] at h
  simp at h

/-- Case analysis of a successful `add_image_object`. -/
theorem add_image_object_ok (img : QemuVirImage) (a : QemuVirImage.AddArgs)
    (img' : QemuVirImage) (h : QemuVirImage.add_image_object img a = .ok img') :
    (a.backing_chain = false ∧
      img' = { img with
               specImages := dictSet img.specImages a.target
                 { format := a.target_params.format, backing := none },
               images := dictSet img.images a.target
                 { volumeAllocated := false,
                   accessNodes := a.target_params.accessNodes } }) ∨
    (∃ top, a.backing_chain = true ∧ (QemuVirImage.image_names img).getLast? = some top ∧
      img' = { name := a.target,
               topology := .tchain (QemuVirImage.image_names img ++ [a.target]),
               specImages := dictSet img.specImages a.target
                 { format := a.target_params.format, backing := some top },
               images := dictSet img.images a.target
                 { volumeAllocated := false,
                   accessNodes := a.target_params.accessNodes } }) := by
  by_cases h1 : (img.images.lookup a.target).isSome
  · simp [QemuVirImage.add_image_object, h1] at h
  · by_cases h2 : (QemuVirImage.add_node_names img a).all
        (fun n => decide (n ∈ QemuVirImage.image_access_nodes img))
    · simp only [QemuVirImage.add_image_object] at h
      rw [if_neg h1, if_neg (not_not_intro h2)] at h
      cases hbc : a.backing_chain
      · rw [if_neg (by simp [hbc])] at h
        cases h
        left
        exact ⟨rfl, rfl⟩
      · rw [if_pos hbc] at h
        rcases hlast : (QemuVirImage.image_names img).getLast? with _ | top
        · simp only [hlast] at h
          cases h
        · simp only [hlast] at h
          cases h
          right
          exact ⟨top, rfl, rfl, rfl⟩
    · simp only [QemuVirImage.add_image_object] at h
      rw [if_neg h1, if_pos h2] at h
      cases h

/-- A successful `create_loop` only touches the `images` table. -/
theorem create_loop_frame (ts : List String) :
    ∀ (img img' : QemuVirImage), QemuVirImage.create_loop img ts = .ok img' →
    img'.topology = img.topology ∧ img'.name = img.name ∧
    img'.specImages = img.specImages := by
  induction ts with
  | nil =>
    intro img img' h
    unfold QemuVirImage.create_loop at h
    cases h
    exact ⟨rfl, rfl, rfl⟩
  | cons t rest ih =>
    intro img img' h
    unfold QemuVirImage.create_loop at h
    split at h
    · exact absurd h (by simp)
    · obtain ⟨e₁, e₂, e₃⟩ := ih _ _ h
      exact ⟨e₁, e₂, e₃⟩

/-- A successful `create` only touches the `images` table. -/
theorem create_frame (img : QemuVirImage) (a : QemuVirImage.CreateArgs)
    (remote : Nat × String) (img' : QemuVirImage)
    (h : QemuVirImage.create img a remote = .ok img') :
    img'.topology = img.topology ∧ img'.name = img.name ∧
    img'.specImages = img.specImages := by
  unfold QemuVirImage.create at h
  split at h
  · exact absurd h (by simp)
  · rename_i st hst
    split at h
    · exact absurd h (by simp)
    · cases h
      unfold QemuVirImage.create_phase at hst
      split at hst
      · exact absurd hst (by simp)
      · split at hst
        · split at hst
          · split at hst
            · exact absurd hst (by simp)
            · split at hst
              · exact absurd hst (by simp)
              · exact create_loop_frame _ _ _ hst
          · exact create_loop_frame _ _ _ hst
        · exact create_loop_frame _ _ _ hst

/-- Case analysis of a successful `remove_image_object`. -/
theorem remove_image_object_ok (img : QemuVirImage) (a : QemuVirImage.RemoveArgs)
    (img' : QemuVirImage) (h : QemuVirImage.remove_image_object img a = .ok img') :
    (a.target ∉ QemuVirImage.image_names img ∧
      img'.topology = img.topology ∧ img'.name = img.name) ∨
    (∃ ns newTop, img.topology = .tchain ns ∧ a.target ∈ ns ∧
      (ns.erase a.target).getLast? = some newTop ∧
      img'.name = newTop ∧
      img'.topology = (if (ns.erase a.target).length < 2
        then Topology.tnone (ns.erase a.target)
        else Topology.tchain (ns.erase a.target))) := by
  by_cases h1 : (img.images.lookup a.target).isNone
  · simp [QemuVirImage.remove_image_object, h1] at h
  · by_cases h2 : img.images.length = 1
    · simp [QemuVirImage.remove_image_object, h1, h2] at h
    · by_cases h3 : a.target ∈ QemuVirImage.image_names img
      · rcases htopo : img.topology with ns | ns
        · -- topology "none" and target on it: always raises
          simp [QemuVirImage.remove_image_object, h1, h2, h3, htopo] at h
        · have h3' : a.target ∈ ns := by
            unfold QemuVirImage.image_names at h3
            rwa [htopo] at h3
          have himgns : QemuVirImage.image_names img = ns := by
            unfold QemuVirImage.image_names
            rw [htopo]
          rcases hlast : ns.getLast? with _ | top
          · rcases List.getLast?_eq_none_iff.mp hlast
            simp at h3'
          · by_cases h4 : a.target = top
            · -- removable position: remove_commit runs
              subst h4
              simp only [QemuVirImage.remove_image_object] at h
              rw [if_neg h1, if_neg h2, if_pos h3] at h
              simp only [htopo, hlast, if_neg (not_not_intro rfl)] at h
              rcases hl : img.images.lookup a.target with _ | layer
              · exact absurd (by simp [hl]) h1
              · simp only [QemuVirImage.remove_commit, hl] at h
                by_cases halloc : layer.volumeAllocated
                · rw [if_pos halloc] at h
                  cases h
                · rw [if_neg halloc, if_pos h3] at h
                  rw [himgns, htopo] at h
                  simp only [QemuVirImage.set_topology_names] at h
                  rcases herl : (ns.erase a.target).getLast? with _ | newTop
                  · simp only [herl] at h
                    cases h
                  · simp only [herl] at h
                    by_cases hlen : (ns.erase a.target).length < 2
                    · rw [if_pos hlen] at h
                      cases h
                      right
                      exact ⟨ns, newTop, rfl, h3', herl, rfl, by simp [hlen]⟩
                    · rw [if_neg hlen] at h
                      cases h
                      right
                      exact ⟨ns, newTop, rfl, h3', herl, rfl, by simp [hlen]⟩
            · simp [QemuVirImage.remove_image_object, h1, h2, h3, htopo,
                hlast, h4] at h
      · -- target not on the topology: remove_commit keeps topology and name
        simp only [QemuVirImage.remove_image_object] at h
        rw [if_neg h1, if_neg h2, if_neg h3] at h
        rcases hl : img.images.lookup a.target with _ | layer
        · exact absurd (by simp [hl]) h1
        · simp only [QemuVirImage.remove_commit, hl] at h
          by_cases halloc : layer.volumeAllocated
          · rw [if_pos halloc] at h
            cases h
          · rw [if_neg halloc, if_neg h3] at h
            cases h
            exact Or.inl ⟨h3, rfl, rfl⟩

/-- A successful `qemu_img_rebase` puts the target on top of the chain. -/
theorem rebase_ok_shape (img : QemuVirImage) (a : QemuVirImage.RebaseArgs)
    (rc rr : Nat × String) (img' : QemuVirImage)
    (h : QemuVirImage.qemu_img_rebase img a rc rr = .ok img') :
    img'.name = a.target ∧
    img'.topology = .tchain (QemuVirImage.image_names img ++ [a.target]) := by
  unfold QemuVirImage.qemu_img_rebase at h
  rcases hlast : (QemuVirImage.image_names img).getLast? with _ | backing
  · simp only [hlast] at h
    cases h
  · simp only [hlast] at h
    rcases hadd : QemuVirImage.add_image_object img
        { target := a.target, target_params := a.target_params,
          backing_chain := false, nodes := a.nodes } with e | st₁
    · simp only [hadd] at h
      cases h
    · simp only [hadd] at h
      have hst₁ : st₁.topology = img.topology := by
        rcases add_image_object_ok _ _ _ hadd with ⟨_, heq⟩ | ⟨top, hbc, _, _⟩
        · rw [heq]
        · cases hbc
      rcases hcr : QemuVirImage.create st₁ { target := some a.target } rc with e | st₂
      · simp only [hcr] at h
        cases h
      · simp only [hcr] at h
        have hst₂ : st₂.topology = img.topology := by
          rw [(create_frame _ _ _ _ hcr).1, hst₁]
        have hnames : QemuVirImage.image_names st₂ = QemuVirImage.image_names img := by
          unfold QemuVirImage.image_names
          rw [hst₂]
        by_cases hrr : rr.1 ≠ 0
        · rw [if_pos hrr] at h
          cases h
        · rw [if_neg hrr] at h
          rcases hcfg : (List.lookup a.target st₂.specImages) with _ | cfg
          · simp only [hcfg] at h
            cases h
          · simp only [hcfg] at h
            cases h
            exact ⟨rfl, by rw [hnames]⟩

/-- `TopoInv` is preserved by a successful `add_image_object`. -/
theorem topoInv_add (img : QemuVirImage) (a : QemuVirImage.AddArgs)
    (img' : QemuVirImage) (hinv : TopoInv img)
    (h : QemuVirImage.add_image_object img a = .ok img') : TopoInv img' := by
  rcases add_image_object_ok img a img' h with ⟨_, heq⟩ | ⟨top, _, _, heq⟩
  · subst heq
    exact hinv
  · subst heq
    have hne := topoInv_names_ne_nil img hinv
    have hpos := List.length_pos.mpr hne
    unfold QemuVirImage.image_names at hpos
    unfold TopoInv topoConsistent QemuVirImage.image_names
    simp [List.getLast?_concat]
    omega

/-- `TopoInv` is preserved by a successful `remove_image_object`. -/
theorem topoInv_remove (img : QemuVirImage) (a : QemuVirImage.RemoveArgs)
    (img' : QemuVirImage) (hinv : TopoInv img)
    (h : QemuVirImage.remove_image_object img a = .ok img') : TopoInv img' := by
  rcases remove_image_object_ok img a img' h with
    ⟨hmem, htopo, hname⟩ | ⟨ns, newTop, htopo, hmem, herl, hname, htopo'⟩
  · have hn : QemuVirImage.image_names img' = QemuVirImage.image_names img := by
      unfold QemuVirImage.image_names
      rw [htopo]
    unfold TopoInv topoConsistent at hinv ⊢
    rw [htopo, hname, hn]
    exact hinv
  · have hlen : ns.length ≥ 2 := by
      unfold TopoInv topoConsistent at hinv
      simp only [Bool.and_eq_true, beq_iff_eq, decide_eq_true_eq, htopo] at hinv
      exact hinv.1
    have herlen : (ns.erase a.target).length = ns.length - 1 :=
      List.length_erase_of_mem hmem
    by_cases hlt : (ns.erase a.target).length < 2
    · rw [if_pos hlt] at htopo'
      unfold TopoInv topoConsistent QemuVirImage.image_names
      rw [htopo', hname]
      simp [herl]
      omega
    · rw [if_neg hlt] at htopo'
      unfold TopoInv topoConsistent QemuVirImage.image_names
      rw [htopo', hname]
      simp [herl]
      omega

/-- `TopoInv` is preserved by a successful `qemu_img_rebase`. -/
theorem topoInv_rebase (img : QemuVirImage) (a : QemuVirImage.RebaseArgs)
    (rc rr : Nat × String) (img' : QemuVirImage) (hinv : TopoInv img)
    (h : QemuVirImage.qemu_img_rebase img a rc rr = .ok img') : TopoInv img' := by
  obtain ⟨hname, htopo⟩ := rebase_ok_shape img a rc rr img' h
  have hne := topoInv_names_ne_nil img hinv
  have hpos := List.length_pos.mpr hne
  unfold TopoInv topoConsistent QemuVirImage.image_names
  rw [htopo, hname]
  simp [List.getLast?_concat]
  exact hpos

end QemuVirImage

/-- `create_loop` preserves a layer's allocated mark. -/
theorem create_loop_keeps_alloc (ts : List String) :
    ∀ (img st : QemuVirImage) (u : String),
    QemuVirImage.create_loop img ts = .ok st →
    (img.images.lookup u).map LayerState.volumeAllocated = some true →
    (st.images.lookup u).map LayerState.volumeAllocated = some true := by
  induction ts with
  | nil =>
    intro img st u h hu
    unfold QemuVirImage.create_loop at h
    cases h
    exact hu
  | cons t rest ih =>
    intro img st u h hu
    unfold QemuVirImage.create_loop at h
    rcases hl : img.images.lookup t with _ | layer
    · rw [hl] at h
      cases h
    · rw [hl] at h
      simp only at h
      refine ih _ _ _ h ?_
      by_cases hut : u = t
      · subst hut
        rw [show (QemuVirImage.mk img.name img.topology img.specImages
            (dictSet img.images u { layer with volumeAllocated := true })).images =
            dictSet img.images u { layer with volumeAllocated := true } from rfl,
          lookup_dictSet_self]
        rfl
      · rw [show (QemuVirImage.mk img.name img.topology img.specImages
            (dictSet img.images t { layer with volumeAllocated := true })).images =
            dictSet img.images t { layer with volumeAllocated := true } from rfl,
          lookup_dictSet_other _ _ _ _ hut]
        exact hu

/-- After a successful `create_loop`, every targeted layer is marked
allocated. -/
theorem create_loop_allocates (ts : List String) :
    ∀ (img st : QemuVirImage),
    QemuVirImage.create_loop img ts = .ok st →
    ∀ t ∈ ts, (st.images.lookup t).map LayerState.volumeAllocated = some true := by
  induction ts with
  | nil =>
    intro img st _ t ht
    cases ht
  | cons t₀ rest ih =>
    intro img st h t ht
    unfold QemuVirImage.create_loop at h
    rcases hl : img.images.lookup t₀ with _ | layer
    · rw [hl] at h
      cases h
    · rw [hl] at h
      simp only at h
      rcases List.mem_cons.mp ht with he | hr
      · subst he
        refine create_loop_keeps_alloc rest _ _ _ h ?_
        rw [show (QemuVirImage.mk img.name img.topology img.specImages
            (dictSet img.images t { layer with volumeAllocated := true })).images =
            dictSet img.images t { layer with volumeAllocated := true } from rfl,
          lookup_dictSet_self]
        rfl
      · exact ih _ _ h t hr

/-- A successful `create_phase` has marked every targeted layer allocated. -/
theorem create_phase_ok_allocates (img st : QemuVirImage) (a : QemuVirImage.CreateArgs)
    (h : QemuVirImage.create_phase img a = .ok st) :
    ∀ t ∈ QemuVirImage.create_targets img a.target,
      (st.images.lookup t).map LayerState.volumeAllocated = some true := by
  unfold QemuVirImage.create_phase at h
  rcases hh : (QemuVirImage.image_access_nodes img).head? with _ | n
  · rw [hh] at h
    cases h
  · rw [hh] at h
    simp only at h
    rcases ht : a.target with _ | t
    · simp only [ht] at h
      exact create_loop_allocates _ _ _ h
    · simp only [ht] at h
      by_cases hmem : t ∈ QemuVirImage.image_names img
      · rw [if_pos hmem] at h
        rcases hl : (QemuVirImage.image_names img).getLast? with _ | top
        · rw [hl] at h
          cases h
        · rw [hl] at h
          simp only at h
          by_cases hne : t ≠ top
          · rw [if_pos hne] at h
            cases h
          · rw [if_neg hne] at h
            exact create_loop_allocates _ _ _ h
      · rw [if_neg hmem] at h
        exact create_loop_allocates _ _ _ h

/-! ## Concrete example images used by witnesses and counterexamples -/

def exLayerFree : LayerState := { volumeAllocated := false, accessNodes := ["n1"] }

def exLayerAllocated : LayerState := { volumeAllocated := true, accessNodes := ["n1"] }

/-- A single-layer qemu image "base" (spec scenario A shape). -/
def exImgBase : QemuVirImage :=
  { name := "base", topology := .tnone ["base"],
    specImages := [("base", { format := "raw", backing := none })],
    images := [("base", exLayerFree)] }

def exParamsQcow : LayerParams := { format := "qcow2", accessNodes := ["n1"] }

def exArgsSn : QemuVirImage.AddArgs :=
  { target := "sn", target_params := exParamsQcow, backing_chain := true, nodes := none }

def exArgsOrphan : QemuVirImage.AddArgs :=
  { target := "o1", target_params := exParamsQcow, backing_chain := false, nodes := none }

/-- `exImgBase` after `add_image_object {target: sn, backing_chain: true}`. -/
def exImgSn : QemuVirImage :=
  { name := "sn", topology := .tchain ["base", "sn"],
    specImages := [("base", { format := "raw", backing := none }),
                   ("sn", { format := "qcow2", backing := some "base" })],
    images := [("base", exLayerFree), ("sn", exLayerFree)] }

/-- `exImgBase` after `add_image_object {target: o1}` (no backing chain). -/
def exImgOrphan : QemuVirImage :=
  { name := "base", topology := .tnone ["base"],
    specImages := [("base", { format := "raw", backing := none }),
                   ("o1", { format := "qcow2", backing := none })],
    images := [("base", exLayerFree), ("o1", exLayerFree)] }

/-- A two-layer chain base ← sn, both layers unallocated. -/
def exImgChainFree : QemuVirImage := exImgSn

/-- A two-layer chain base ← sn whose top layer's volume is allocated. -/
def exImgChainTopAllocated : QemuVirImage :=
  { name := "sn", topology := .tchain ["base", "sn"],
    specImages := [("base", { format := "raw", backing := none }),
                   ("sn", { format := "qcow2", backing := some "base" })],
    images := [("base", exLayerFree), ("sn", exLayerAllocated)] }

/-- `exImgChainTopAllocated` after the failing `remove_image_object
{target: sn}`: the still-allocated top has been popped from the layer
table. -/
def exImgChainAfterFail : QemuVirImage :=
  { name := "sn", topology := .tchain ["base", "sn"],
    specImages := [("base", { format := "raw", backing := none }),
                   ("sn", { format := "qcow2", backing := some "base" })],
    images := [("base", exLayerFree)] }

/-- `exImgBase` after the allocation loop of `create` marked its sole
layer allocated. -/
def exImgBaseAllocated : QemuVirImage :=
  { name := "base", topology := .tnone ["base"],
    specImages := [("base", { format := "raw", backing := none })],
    images := [("base", exLayerAllocated)] }

/-- A single-name topology image owning two extra orphan layers. -/
def exImgTwoOrphans : QemuVirImage :=
  { name := "base", topology := .tnone ["base"],
    specImages := [("base", { format := "raw", backing := none }),
                   ("o1", { format := "qcow2", backing := none }),
                   ("o2", { format := "qcow2", backing := none })],
    images := [("base", exLayerFree), ("o1", exLayerFree), ("o2", exLayerFree)] }

/-- Where `destroy_object` on `exImgTwoOrphans` stops: the topology layer
and the first orphan were destroyed, the second orphan is still owned. -/
def exImgTwoOrphansAfter : QemuVirImage :=
  { name := "base", topology := .tnone ["base"],
    specImages := [("base", { format := "raw", backing := none }),
                   ("o1", { format := "qcow2", backing := none }),
                   ("o2", { format := "qcow2", backing := none })],
    images := [("o2", exLayerFree)] }

/-! ## Claim C1 -/

/-- C1, counterexample: on the single-layer image "base",
`add_image_object {target: o1}` without `backing_chain` succeeds and leaves
the image owning two layer objects while the topology tag is still
`{none: [base]}` — so "two or more owned layer objects imply topology
chain" is false of the code. -/
theorem C1_counterexample :
    QemuVirImage.add_image_object exImgBase exArgsOrphan = Except.ok exImgOrphan ∧
    2 ≤ exImgOrphan.images.length ∧
    exImgOrphan.topology = Topology.tnone ["base"] := by
  refine ⟨rfl, by decide, by decide⟩

/-- C1 (amended): after every successful `add_image_object`,
`remove_image_object` or `qemu_img_rebase`, the topology tag is consistent
with the layers *named on the topology* (not with all owned layer objects:
a layer added without `backing_chain` is owned but unlisted): exactly one
listed name implies the `none` tag, two or more imply the `chain` tag
(ordered base to top), and the image's own `name` equals the last (top)
listed name. -/
theorem C1_topology_tag_consistent (img : QemuVirImage) (hinv : QemuVirImage.TopoInv img) :
    (∀ a img', QemuVirImage.add_image_object img a = .ok img' → QemuVirImage.TopoInv img') ∧
    (∀ a img', QemuVirImage.remove_image_object img a = .ok img' → QemuVirImage.TopoInv img') ∧
    (∀ a rc rr img', QemuVirImage.qemu_img_rebase img a rc rr = .ok img' → QemuVirImage.TopoInv img') :=
  ⟨fun a img' h => QemuVirImage.topoInv_add img a img' hinv h,
   fun a img' h => QemuVirImage.topoInv_remove img a img' hinv h,
   fun a rc rr img' h => QemuVirImage.topoInv_rebase img a rc rr img' hinv h⟩

/-- C1 witness: the amended invariant, instantiated on adding "sn" with a
backing chain on top of the single-layer image "base". -/
theorem C1_topology_tag_consistent_witness : QemuVirImage.TopoInv exImgSn :=
  (C1_topology_tag_consistent exImgBase (by decide)).1 exArgsSn exImgSn rfl

/-! ## Claim C6 -/

/-- C6: `add_image_object` with `backing_chain` sets the new layer's
`backing` to the top of the chain at the time of the call, makes the target
the image's name and new top, and the topology becomes the old name list
with the target appended under the `chain` tag (so `{none: [base]}` flips
to `{chain: [base, sn]}`). -/
theorem C6_backing_chain_add (img : QemuVirImage) (a : QemuVirImage.AddArgs)
    (img' : QemuVirImage) (top : String)
    (hbc : a.backing_chain = true)
    (htop : (QemuVirImage.image_names img).getLast? = some top)
    (h : QemuVirImage.add_image_object img a = .ok img') :
    img'.specImages.lookup a.target =
      some { format := a.target_params.format, backing := some top } ∧
    img'.name = a.target ∧
    img'.topology = .tchain (QemuVirImage.image_names img ++ [a.target]) ∧
    (img'.images.lookup a.target).isSome := by
  rcases QemuVirImage.add_image_object_ok img a img' h with ⟨hbc', _⟩ | ⟨top', _, htop', heq⟩
  · rw [hbc] at hbc'
    cases hbc'
  · rw [htop] at htop'
    injection htop' with he
    subst he
    subst heq
    refine ⟨?_, rfl, rfl, ?_⟩
    · exact lookup_dictSet_self _ _ _
    · rw [lookup_dictSet_self]
      rfl

/-- C6 witness: scenario B, `addImageObject {target: sn, backingChain: true}`
on the image "base". -/
theorem C6_backing_chain_add_witness :
    exImgSn.specImages.lookup "sn" = some { format := "qcow2", backing := some "base" } ∧
    exImgSn.name = "sn" ∧
    exImgSn.topology = Topology.tchain (QemuVirImage.image_names exImgBase ++ ["sn"]) ∧
    (exImgSn.images.lookup "sn").isSome :=
  C6_backing_chain_add exImgBase exArgsSn exImgSn "base" rfl rfl rfl

/-! ## Claim C10 -/

/-- C10: `add_image_object` with a target that the image already owns
raises `ValueError` before the node-set check, the config definition and
the layer creation, leaving the image (layer table, topology, name)
unchanged — the error and final state do not depend on any other argument. -/
theorem C10_duplicate_target_add (img : QemuVirImage) (a : QemuVirImage.AddArgs)
    (hdup : (img.images.lookup a.target).isSome) :
    QemuVirImage.add_image_object img a =
      .error (.valueError (a.target ++ " already existed"), img) := by
  unfold QemuVirImage.add_image_object
  rw [if_pos hdup]

/-- C10 witness: adding "base" again — with a node set that is *not* a
subset of the image's nodes — still fails with "already existed" and
leaves the image unchanged, showing the duplicate check fires first. -/
theorem C10_duplicate_target_add_witness :
    QemuVirImage.add_image_object exImgBase
      { target := "base", target_params := exParamsQcow,
        backing_chain := true, nodes := some ["other_node"] } =
      Except.error (.valueError ("base" ++ " already existed"), exImgBase) :=
  C10_duplicate_target_add exImgBase
    { target := "base", target_params := exParamsQcow,
      backing_chain := true, nodes := some ["other_node"] } rfl

/-! ## Claim C2 -/

/-- C2, counterexample: on the single-layer image "base" (volume not yet
allocated), `create({})` with the remote agent answering status 1 and
`out = "disk full"` raises carrying exactly "disk full" — but the layer's
volume *is* marked allocated afterwards (the allocation loop ran before
the failing remote call, and nothing rolls it back), so "no layer's
underlying volume is marked allocated" is false of the code. -/
theorem C2_counterexample :
    QemuVirImage.create exImgBase { target := none } (1, "disk full") =
      Except.error (.exn "disk full", exImgBaseAllocated) ∧
    (exImgBaseAllocated.images.lookup "base").map LayerState.volumeAllocated =
      some true :=
  ⟨rfl, rfl⟩

/-- C2 (amended): if the layer-allocation phase of `create` succeeds and
the remote per-node agent then returns a non-zero status with diagnostic
text `out`, `create` raises an error carrying exactly `out`, and every
layer targeted by the call remains marked allocated (no rollback). -/
theorem C2_create_remote_failure (img st : QemuVirImage)
    (a : QemuVirImage.CreateArgs) (r : Nat) (out : String) (hr : r ≠ 0)
    (hphase : QemuVirImage.create_phase img a = .ok st) :
    QemuVirImage.create img a (r, out) = .error (.exn out, st) ∧
    ∀ t ∈ QemuVirImage.create_targets img a.target,
      (st.images.lookup t).map LayerState.volumeAllocated = some true := by
  constructor
  · unfold QemuVirImage.create
    simp only [hphase]
    rw [if_pos hr]
  · exact create_phase_ok_allocates img st a hphase

/-- C2 witness: the amended statement instantiated on the "disk full"
scenario. -/
theorem C2_create_remote_failure_witness :
    QemuVirImage.create exImgBase { target := none } (1, "disk full") =
      Except.error (.exn "disk full", exImgBaseAllocated) ∧
    (exImgBaseAllocated.images.lookup "base").map LayerState.volumeAllocated =
      some true :=
  have h := C2_create_remote_failure exImgBase exImgBaseAllocated
    { target := none } 1 "disk full" (by decide) rfl
  ⟨h.1, h.2 "base" (by decide)⟩

/-! ## Claim C3 -/

/-- C3, counterexample: removing the still-allocated top of a two-layer
chain raises `RuntimeError`, but the image's layer table is *not* the same
as before the call: the target was popped before the allocation check. -/
theorem C3_counterexample :
    QemuVirImage.remove_image_object exImgChainTopAllocated { target := "sn" } =
      Except.error (.runtimeError "The resource of sn isn't released yet",
        exImgChainAfterFail) ∧
    exImgChainAfterFail.images ≠ exImgChainTopAllocated.images :=
  ⟨rfl, by decide⟩

/-- C3 (amended): `remove_image_object` on a layer whose volume is still
allocated (and which passes the position checks) raises an error; the
failed call leaves topology and name unchanged but drops the target from
the layer table (popped before the allocation check, not destroyed). -/
theorem C3_remove_allocated (img : QemuVirImage) (a : QemuVirImage.RemoveArgs)
    (layer : LayerState)
    (hl : img.images.lookup a.target = some layer)
    (halloc : layer.volumeAllocated = true)
    (hlen : img.images.length ≠ 1)
    (hpos : a.target ∉ QemuVirImage.image_names img ∨
      (∃ ns, img.topology = Topology.tchain ns ∧ a.target ∈ ns ∧
        ns.getLast? = some a.target)) :
    QemuVirImage.remove_image_object img a =
      .error (.runtimeError ("The resource of " ++ a.target ++ " isn't released yet"),
        { img with images := dictEraseKey img.images a.target }) := by
  have h1 : ¬ (img.images.lookup a.target).isNone = true := by simp [hl]
  have hcommit : QemuVirImage.remove_commit img a.target =
      .error (.runtimeError ("The resource of " ++ a.target ++ " isn't released yet"),
        { img with images := dictEraseKey img.images a.target }) := by
    unfold QemuVirImage.remove_commit
    simp only [hl]
    rw [if_pos halloc]
  rcases hpos with hmem | ⟨ns, htopo, hmem, hlast⟩
  · unfold QemuVirImage.remove_image_object
    rw [if_neg h1, if_neg hlen, if_neg hmem]
    exact hcommit
  · have hmem' : a.target ∈ QemuVirImage.image_names img := by
      unfold QemuVirImage.image_names
      rw [htopo]
      exact hmem
    unfold QemuVirImage.remove_image_object
    rw [if_neg h1, if_neg hlen, if_pos hmem']
    simp only [htopo, hlast]
    rw [if_neg (not_not_intro rfl), ← htopo]
    exact hcommit

/-- C3 witness: the amended statement on the allocated top of a two-layer
chain. -/
theorem C3_remove_allocated_witness :
    QemuVirImage.remove_image_object exImgChainTopAllocated { target := "sn" } =
      Except.error
        (.runtimeError ("The resource of " ++ "sn" ++ " isn't released yet"),
        { exImgChainTopAllocated with
          images := dictEraseKey exImgChainTopAllocated.images "sn" }) :=
  C3_remove_allocated exImgChainTopAllocated { target := "sn" } exLayerAllocated
    rfl rfl (by decide) (Or.inr ⟨["base", "sn"], rfl, by decide, rfl⟩)

/-! ## Claim C5 -/

/-- C5: on a chain, a target that is on the topology but is not the current
top makes `remove_image_object`, `create` and `destroy` raise `ValueError`
with the image state unchanged; for `create` the error does not depend on
the remote oracle (no remote call was made, no layer touched). -/
theorem C5_non_top_chain_target_rejected (img : QemuVirImage) (ns : List String)
    (target top : String)
    (htopo : img.topology = Topology.tchain ns)
    (hmem : target ∈ ns)
    (hlast : ns.getLast? = some top)
    (hne : target ≠ top)
    (htbl : (img.images.lookup target).isSome)
    (hlen : img.images.length ≠ 1)
    (hnodes : (QemuVirImage.image_access_nodes img).head? ≠ none) :
    QemuVirImage.remove_image_object img { target := target } =
      .error (.valueError "Only the top virt image in topology can be removed", img) ∧
    (∀ r out, QemuVirImage.create img { target := some target } (r, out) =
      .error (.valueError "Only the top virt image in topology can be created", img)) ∧
    QemuVirImage.destroy img { target := some target } =
      .error (.valueError "Only the top virt image in topology can be destroyed", img) := by
  have hmem' : target ∈ QemuVirImage.image_names img := by
    unfold QemuVirImage.image_names
    rw [htopo]
    exact hmem
  have hlast' : (QemuVirImage.image_names img).getLast? = some top := by
    unfold QemuVirImage.image_names
    rw [htopo]
    exact hlast
  have h1 : ¬ (img.images.lookup target).isNone = true := by
    rcases hx : img.images.lookup target with _ | l
    · rw [hx] at htbl
      cases htbl
    · simp [hx]
  refine ⟨?_, ?_, ?_⟩
  · unfold QemuVirImage.remove_image_object
    rw [if_neg h1, if_neg hlen, if_pos hmem']
    simp only [htopo, hlast]
    rw [if_pos hne]
  · intro r out
    have hphase : QemuVirImage.create_phase img { target := some target } =
        .error (.valueError "Only the top virt image in topology can be created", img) := by
      unfold QemuVirImage.create_phase
      rcases hh : (QemuVirImage.image_access_nodes img).head? with _ | n
      · exact absurd hh hnodes
      · simp only [hh]
        rw [if_pos hmem']
        simp only [hlast']
        rw [if_pos hne]
    unfold QemuVirImage.create
    simp only [hphase]
  · unfold QemuVirImage.destroy
    simp only
    rw [if_pos hmem']
    simp only [hlast']
    rw [if_pos hne]

/-- C5 witness: on the chain base ← sn, targeting "base" (not the top). -/
theorem C5_non_top_chain_target_rejected_witness :
    QemuVirImage.remove_image_object exImgSn { target := "base" } =
      Except.error (.valueError "Only the top virt image in topology can be removed",
        exImgSn) ∧
    QemuVirImage.create exImgSn { target := some "base" } (0, "") =
      Except.error (.valueError "Only the top virt image in topology can be created",
        exImgSn) ∧
    QemuVirImage.destroy exImgSn { target := some "base" } =
      Except.error (.valueError "Only the top virt image in topology can be destroyed",
        exImgSn) :=
  have h := C5_non_top_chain_target_rejected exImgSn ["base", "sn"] "base" "sn"
    rfl (by decide) rfl (by decide) rfl (by decide) (by decide)
  ⟨h.1, h.2.1 0 "", h.2.2⟩

/-! ## Claim C7 -/

/-- C7: `destroy_object` destroys the topology-named layers in reverse
chain order, but the second loop (`for image_name in self.images:
self.destroy_image_object(image_name)`) pops from the ordered dict while
iterating it, so with any orphan layer present it raises `RuntimeError`;
with two orphans the second one is still owned afterwards — the claim
"destroys every remaining owned layer object ... leaving the image with no
layer objects" fails.  Without orphans the destruction does complete. -/
theorem C7_destroy_object_mutation_bug :
    QemuVirImage.destroy_object exImgTwoOrphans =
      Except.error (.runtimeError "OrderedDict mutated during iteration",
        exImgTwoOrphansAfter) ∧
    exImgTwoOrphansAfter.images ≠ [] ∧
    QemuVirImage.destroy_object exImgBase =
      Except.ok { exImgBase with images := [] } :=
  ⟨rfl, by decide, rfl⟩

/-! ## The resource pool: `_ResourcePool.update_resource`

`update_resource(resource_id, config)` looks the resource up (a plain
`dict.get`, `None` if absent), pops the single `{command: arguments}`
entry (embedded as two arguments), rejects a non-empty `nodes` argument
that is not a subset of the pool's `attaching_nodes`, and then calls the
handler returned by `resource.get_update_handler(cmd)`. -/

/-- The commands `_Resource.get_update_handler` knows
(`self._handlers = {"bind", "unbind", "allocate", "release", "sync"}`). -/
inductive RCmd where
  | bind
  | unbind
  | allocate
  | release
  | sync
  deriving DecidableEq

structure RArgs where
  nodes : Option (List String)
  deriving DecidableEq

/-- The observable state of a volume resource: `meta["allocated"]` and
`meta["bindings"]` (node name to backing descriptor). -/
structure Volume where
  allocated : Bool
  bindings : List (String × String)
  deriving DecidableEq

/-- Modelled from the spec: the concrete volume handlers are not under
src/ (`_Resource` declares bind/unbind/allocate/release/sync abstract and
`_Volume`'s pool-specific subclasses are elsewhere).  Per spec section 4.2:
bind/unbind record/remove per-node backing descriptors, allocate/release
mark `allocated` true/false, sync refreshes spec fields (no effect on the
fields embedded here). -/
def apply_handler : RCmd → RArgs → Volume → Volume
  | .bind, a, res =>
    { res with bindings :=
        (a.nodes.getD []).foldl (fun bs n => dictSet bs n "backing") res.bindings }
  | .unbind, a, res =>
    { res with bindings :=
        (a.nodes.getD []).foldl (fun bs n => dictEraseKey bs n) res.bindings }
  | .allocate, _, res => { res with allocated := true }
  | .release, _, res => { res with allocated := false }
  | .sync, _, res => res

structure ResourcePool where
  /-- `pool_meta["access"]["nodes"]`, wildcard already resolved at pool
  construction. -/
  attaching_nodes : List String
  /-- `self._resources`: resource id to resource object. -/
  resources : List (String × Volume)
  deriving DecidableEq

namespace ResourcePool

/-- `handler = resource.get_update_handler(cmd); return handler(arguments)`
on a `dict.get` result: on `None` python raises `AttributeError`. -/
def update_dispatch (p : ResourcePool) (resource_id : String) (cmd : RCmd)
    (arguments : RArgs) (res? : Option Volume) :
    Except (PyError × ResourcePool) ResourcePool :=
  match res? with
  | none => .error (.attributeError "NoneType object has no attribute", p)
  | some res =>
    .ok { p with
          resources := dictSet p.resources resource_id (apply_handler cmd arguments res) }

/-- `_ResourcePool.update_resource`. -/
def update_resource (p : ResourcePool) (resource_id : String) (cmd : RCmd)
    (arguments : RArgs) : Except (PyError × ResourcePool) ResourcePool :=
  let res? := p.resources.lookup resource_id
  -- node_names = arguments.get("nodes"); if node_names: (python truthiness)
  match arguments.nodes with
  | some ns =>
    if ns.isEmpty then
      update_dispatch p resource_id cmd arguments res?
    else if ¬ (ns.all (fun n => n ∈ p.attaching_nodes)) then
      .error (.valueError "Not all nodes can access the pool", p)
    else
      update_dispatch p resource_id cmd arguments res?
  | none => update_dispatch p resource_id cmd arguments res?

end ResourcePool

/-! ## Claim C4 -/

/-- C4: `update_resource` with a non-empty `nodes` list that is not a
subset of the pool's `access.nodes` raises `ValueError` before any
handler runs, leaving the pool (hence the targeted resource) unchanged;
with `nodes` absent or a subset, it dispatches to the resource's handler
for the command and returns the handler's result (the pool with the
resource updated by that handler). -/
theorem C4_update_resource_node_subset (p : ResourcePool) (rid : String)
    (cmd : RCmd) (args : RArgs) :
    (∀ ns, args.nodes = some ns → ns ≠ [] →
      ¬ (∀ n ∈ ns, n ∈ p.attaching_nodes) →
      ResourcePool.update_resource p rid cmd args =
        .error (.valueError "Not all nodes can access the pool", p)) ∧
    (∀ res, p.resources.lookup rid = some res →
      (args.nodes = none ∨
        ∃ ns, args.nodes = some ns ∧ ∀ n ∈ ns, n ∈ p.attaching_nodes) →
      ResourcePool.update_resource p rid cmd args =
        .ok { p with
              resources := dictSet p.resources rid (apply_handler cmd args res) }) := by
  constructor
  · intro ns hns hne hsub
    unfold ResourcePool.update_resource
    simp only [hns]
    rw [if_neg (by simpa using hne), if_pos (by simpa using hsub)]
  · intro res hres hok
    have hdisp : ResourcePool.update_dispatch p rid cmd args
        (p.resources.lookup rid) =
        .ok { p with resources := dictSet p.resources rid (apply_handler cmd args res) } := by
      rw [hres]
      rfl
    rcases hok with hnone | ⟨ns, hns, hsub⟩
    · unfold ResourcePool.update_resource
      simp only [hnone]
      exact hdisp
    · unfold ResourcePool.update_resource
      simp only [hns]
      by_cases hemp : ns.isEmpty
      · rw [if_pos hemp]
        exact hdisp
      · rw [if_neg hemp, if_neg (by simpa using hsub)]
        exact hdisp

def exPool : ResourcePool :=
  { attaching_nodes := ["n1", "n2"],
    resources := [("vol1", { allocated := false, bindings := [] })] }

/-- C4 witness: on a pool attached to n1/n2, an `allocate` naming n3 is
rejected with the pool unchanged, while an `allocate` without nodes runs
the allocate handler and marks the volume allocated. -/
theorem C4_update_resource_node_subset_witness :
    ResourcePool.update_resource exPool "vol1" .allocate { nodes := some ["n3"] } =
      Except.error (.valueError "Not all nodes can access the pool", exPool) ∧
    ResourcePool.update_resource exPool "vol1" .allocate { nodes := none } =
      Except.ok { exPool with
        resources := [("vol1", { allocated := true, bindings := [] })] } :=
  ⟨(C4_update_resource_node_subset exPool "vol1" .allocate
      { nodes := some ["n3"] }).1 ["n3"] rfl (by decide) (by decide),
   (C4_update_resource_node_subset exPool "vol1" .allocate
      { nodes := none }).2 { allocated := false, bindings := [] } rfl (Or.inl rfl)⟩

/-! ## Configuration documents and `_VTImageManager.get_image_info`

A configuration is a nested python dict with string keys whose leaves are
strings, None, booleans, integers or lists.  `get_image_info(image_id,
request)` takes the image's config (a deep copy, so a plain value here)
and walks a dot-separated path with `if item in config: config =
config[item] else: raise ValueError(request)`; after a complete walk the
`for`/`else` wraps the value as `{item: config}` with the last item. -/

inductive Doc where
  | dict (entries : List (String × Doc))
  | str (s : String)
  | nullD
  | boolD (b : Bool)
  | natD (n : Nat)
  | listD (xs : List Doc)

/-- Python `needle in hay` on strings: contiguous substring test (the
empty string is in every string), on the character lists so that it
evaluates by kernel reduction. -/
def pySubstr (needle hay : String) : Bool :=
  decide (needle.data <:+: hay.data)

/-- `request.split(".")` for the single-character separator the code uses,
defined structurally on the character list: python semantics, including
`"".split(".") == [""]` and empty groups between consecutive dots. -/
def splitOnChar (sep : Char) : List Char → List (List Char)
  | [] => [[]]
  | c :: rest =>
    match splitOnChar sep rest with
    | [] => if c = sep then [[], [c]] else [[c]]
    | g :: gs => if c = sep then [] :: g :: gs else (c :: g) :: gs

def pySplitDot (s : String) : List String :=
  (splitOnChar (Char.ofNat 46) s.data).map (fun cs => String.mk cs)

/-- Python `item in config` for a string `item`: key membership on dicts,
substring on strings, element equality on lists, `TypeError` elsewhere. -/
def pyContains (c : Doc) (item : String) : Except PyError Bool :=
  match c with
  | .dict es => .ok (es.lookup item).isSome
  | .str s => .ok (pySubstr item s)
  | .listD xs => .ok (xs.any (fun d => match d with | .str t => t == item | _ => false))
  | .nullD => .error (.typeError "argument of type NoneType is not iterable")
  | .boolD _ => .error (.typeError "argument of type bool is not iterable")
  | .natD _ => .error (.typeError "argument of type int is not iterable")

/-- Python `config[item]` for a string `item`. -/
def pyGetItem (c : Doc) (item : String) : Except PyError Doc :=
  match c with
  | .dict es =>
    match es.lookup item with
    | some v => .ok v
    | none => .error (.keyError item)
  | .str _ => .error (.typeError "string indices must be integers")
  | .listD _ => .error (.typeError "list indices must be integers")
  | .nullD => .error (.typeError "NoneType object is not subscriptable")
  | .boolD _ => .error (.typeError "bool object is not subscriptable")
  | .natD _ => .error (.typeError "int object is not subscriptable")

/-- The request loop of `_VTImageManager.get_image_info` over
`request.split(".")`: `if item in config: config = config[item] else:
raise ValueError(request)` for each item. -/
def info_walk (request : String) (config : Doc) :
    List String → Except PyError Doc
  | [] => .ok config
  | item :: rest =>
    match pyContains config item with
    | .error e => .error e
    | .ok true =>
      match pyGetItem config item with
      | .error e => .error e
      | .ok c => info_walk request c rest
    | .ok false => .error (.valueError request)

/-- The image-manager table: image id to the image's configuration
document (`image.get_image_info(verbose=False)` deep-copies the config,
so the stored value stands for it). -/
structure VTImageManager where
  images : List (String × Doc)

namespace VTImageManager

/-- `_VTImageManager.get_image_info`: look the image up (`dict.get`, so a
missing id gives `None` and the method call on it raises
`AttributeError`), take its config, and walk the request path; after a
complete walk the `for`/`else` clause wraps the value as `{item: config}`
with the last item (`request.split(".")` is never empty, so the last item
exists). -/
def get_image_info (mgr : VTImageManager) (image_id : String)
    (request : Option String) : Except PyError Doc :=
  match mgr.images.lookup image_id with
  | none => .error (.attributeError "NoneType object has no attribute get_image_info")
  | some config =>
    match request with
    | none => .ok config
    | some req =>
      let items := pySplitDot req
      match info_walk req config items with
      | .error e => .error e
      | .ok c => .ok (.dict [(items.getLast?.getD "", c)])

end VTImageManager

/-- Pure descent through dict levels: `some` exactly when every path
segment is a key of a dict at the corresponding level. -/
def dictDescend (c : Doc) : List String → Option Doc
  | [] => some c
  | i :: is =>
    match c with
    | .dict es =>
      (match es.lookup i with
       | some v => dictDescend v is
       | none => none)
    | _ => none

/-- If the descent along `pre` reaches a dict without the key `bad`, the
request walk raises `ValueError request` at that point, whatever
follows. -/
theorem info_walk_bad_segment (request : String) :
    ∀ (pre : List String) (config : Doc) (bad : String)
      (rest : List String) (es : List (String × Doc)),
    dictDescend config pre = some (.dict es) →
    es.lookup bad = none →
    info_walk request config (pre ++ bad :: rest) =
      .error (.valueError request) := by
  intro pre
  induction pre with
  | nil =>
    intro config bad rest es hdes hbad
    rw [show dictDescend config [] = some config from rfl] at hdes
    injection hdes with hdes
    subst hdes
    unfold info_walk
    simp [pyContains, hbad]
  | cons p ps ih =>
    intro config bad rest es hdes hbad
    cases config with
    | dict es0 =>
      have hdes2 : (match es0.lookup p with
          | some v => dictDescend v ps
          | none => none) = some (Doc.dict es) := hdes
      rcases hl : es0.lookup p with _ | v
      · rw [hl] at hdes2
        cases hdes2
      · rw [hl] at hdes2
        simp only at hdes2
        rw [List.cons_append]
        unfold info_walk
        simp only [pyContains, pyGetItem, hl]
        exact ih v bad rest es hdes2 hbad
    | str s => cases hdes
    | nullD => cases hdes
    | boolD b => cases hdes
    | natD n => cases hdes
    | listD xs => cases hdes

/-! ## Claim C8 -/

/-- C8: for a registered image, `get_image_info(image_id, request)` with
`request = None` returns the image's whole configuration document; with a
dot-separated path whose prefix descends through dict levels, it raises
`ValueError` carrying the request as soon as a segment is not a key of the
dict at the corresponding level, whatever segments follow. -/
theorem C8_get_image_info (mgr : VTImageManager) (image_id : String)
    (config : Doc) (hreg : mgr.images.lookup image_id = some config) :
    VTImageManager.get_image_info mgr image_id none = .ok config ∧
    (∀ (req : String) (pre : List String) (bad : String) (rest : List String)
       (es : List (String × Doc)),
      pySplitDot req = pre ++ bad :: rest →
      dictDescend config pre = some (.dict es) →
      es.lookup bad = none →
      VTImageManager.get_image_info mgr image_id (some req) =
        .error (.valueError req)) := by
  constructor
  · unfold VTImageManager.get_image_info
    rw [hreg]
  · intro req pre bad rest es hsplit hdes hbad
    unfold VTImageManager.get_image_info
    rw [hreg]
    simp only [hsplit]
    rw [info_walk_bad_segment req pre config bad rest es hdes hbad]

def exDocImg : Doc :=
  .dict [("meta", .dict [("uuid", .str "u1"), ("name", .str "sn")]),
         ("spec", .dict [("images", .dict [("sn", .dict [("meta", .dict [])])])])]

def exMgr : VTImageManager := { images := [("img1", exDocImg)] }

/-- C8 witness: `request = None` returns the whole document, and the path
"spec.images.base.spec" fails with `ValueError` at the segment "base",
which is not a key of `spec.images`. -/
theorem C8_get_image_info_witness :
    VTImageManager.get_image_info exMgr "img1" none = .ok exDocImg ∧
    VTImageManager.get_image_info exMgr "img1" (some "spec.images.base.spec") =
      .error (.valueError "spec.images.base.spec") :=
  have h := C8_get_image_info exMgr "img1" exDocImg rfl
  ⟨h.1, h.2 "spec.images.base.spec" ["spec", "images"] "base" ["spec"]
    [("sn", .dict [("meta", .dict [])])] rfl rfl rfl⟩

/-! ## A heap model for `copy.deepcopy` and `_ResourcePool.get_resource_info`

`get_resource_info` returns `deepcopy(resource.resource_config)`, with
`config["meta"]["pool"] = deepcopy(self.pool_config)` when verbose.  The
point of the deep copy — the stored configuration is unaffected by later
mutation of the returned document — is about object identity, so this part
is embedded against an explicit heap: an address-indexed store of python
objects.  A cell is either a (mutable) dict of string keys mapping to
addresses, or a leaf holding an immutable value (string, None, bool, int,
lists of such) embedded as a `Doc`.  `deepcopy` allocates fresh cells for
every node (python shares immutable leaves; copying them too is
observationally equal, since mutation replaces whole cells). -/

inductive LeafVal where
  | strv (s : String)
  | nullv
  | boolv (b : Bool)
  | natv (n : Nat)
  | listv (xs : List String)
  deriving DecidableEq

/-- The document value of an immutable leaf (the list leaves occurring in
configurations are lists of node names). -/
def leafDoc : LeafVal → Doc
  | .strv s => .str s
  | .nullv => .nullD
  | .boolv b => .boolD b
  | .natv n => .natD n
  | .listv xs => .listD (xs.map Doc.str)

inductive HObj where
  | hdict (entries : List (String × Nat))
  | hleaf (v : LeafVal)
  deriving DecidableEq

abbrev Heap := List HObj

/-- The addresses a cell refers to. -/
def cellRefs : HObj → List Nat
  | .hdict es => es.map Prod.snd
  | .hleaf _ => []

/-- Read every entry of a dict with the given child reader. -/
def readEntries (rd : Nat → Option Doc) : List (String × Nat) →
    Option (List (String × Doc))
  | [] => some []
  | (k, a) :: as =>
    match rd a, readEntries rd as with
    | some d, some tl => some ((k, d) :: tl)
    | _, _ => none

/-- Read the document value rooted at address `a`; the fuel bounds the
dict-nesting depth. -/
def readObj : Nat → Heap → Nat → Option Doc
  | 0, _, _ => none
  | fuel+1, h, a =>
    match h.get? a with
    | some (.hdict es) => (readEntries (readObj fuel h) es).map Doc.dict
    | some (.hleaf v) => some (leafDoc v)
    | none => none

def reachEntries (rc : Nat → List Nat) : List (String × Nat) → List Nat
  | [] => []
  | (_, a) :: as => rc a ++ reachEntries rc as

/-- The addresses visited by a read from `a`. -/
def reach : Nat → Heap → Nat → List Nat
  | 0, _, _ => []
  | fuel+1, h, a =>
    a :: (match h.get? a with
      | some (.hdict es) => reachEntries (reach fuel h) es
      | _ => [])

/-- Copy every entry of a dict with the given child copier, threading the
growing heap left to right. -/
def copyEntries (cp : Heap → Nat → Option (Heap × Nat)) :
    Heap → List (String × Nat) → Option (Heap × List (String × Nat))
  | h, [] => some (h, [])
  | h, (k, a) :: as =>
    match cp h a with
    | some (h₁, r) =>
      match copyEntries cp h₁ as with
      | some (h₂, tl) => some (h₂, (k, r) :: tl)
      | none => none
    | none => none

/-- `copy.deepcopy`: allocate a fresh cell for every reachable node,
children before their parent.  Python shares immutable leaves instead of
copying them; allocating fresh leaf cells is observationally equal, since
mutation replaces whole cells and leaves are immutable. -/
def deepcopy : Nat → Heap → Nat → Option (Heap × Nat)
  | 0, _, _ => none
  | fuel+1, h, a =>
    match h.get? a with
    | some (.hdict es) =>
      match copyEntries (deepcopy fuel) h es with
      | some (h₁, es') => some (h₁ ++ [HObj.hdict es'], h₁.length)
      | none => none
    | some (.hleaf v) => some (h ++ [HObj.hleaf v], h.length)
    | none => none

/-! ### Entry-level helper lemmas -/

theorem readEntries_pt (rd rd' : Nat → Option Doc) :
    ∀ (es : List (String × Nat)) (ds : List (String × Doc)),
    readEntries rd es = some ds →
    (∀ p ∈ es, ∀ d, rd p.2 = some d → rd' p.2 = some d) →
    readEntries rd' es = some ds := by
  intro es
  induction es with
  | nil =>
    intro ds h _
    exact h
  | cons p as ih =>
    intro ds h hpt
    obtain ⟨k, a⟩ := p
    unfold readEntries at h ⊢
    rcases h1 : rd a with _ | d
    · rw [h1] at h
      cases h
    · rcases h2 : readEntries rd as with _ | tl
      · rw [h1, h2] at h
        cases h
      · rw [h1, h2] at h
        rw [hpt (k, a) (List.mem_cons_self _ _) d h1,
          ih tl h2 (fun p hp => hpt p (List.mem_cons_of_mem _ hp))]
        exact h

theorem readEntries_entry (rd : Nat → Option Doc) :
    ∀ (es : List (String × Nat)) (ds : List (String × Doc)),
    readEntries rd es = some ds →
    ∀ p ∈ es, ∃ d, rd p.2 = some d := by
  intro es
  induction es with
  | nil =>
    intro ds _ p hp
    cases hp
  | cons q as ih =>
    intro ds h p hp
    obtain ⟨k, a⟩ := q
    unfold readEntries at h
    rcases h1 : rd a with _ | d
    · rw [h1] at h
      cases h
    · rcases h2 : readEntries rd as with _ | tl
      · rw [h1, h2] at h
        cases h
      · rcases List.mem_cons.mp hp with he | hm
        · subst he
          exact ⟨d, h1⟩
        · exact ih tl h2 p hm

theorem reachEntries_mem (rc : Nat → List Nat) :
    ∀ (es : List (String × Nat)) (m : Nat),
    m ∈ reachEntries rc es ↔ ∃ p ∈ es, m ∈ rc p.2 := by
  intro es m
  induction es with
  | nil => simp [reachEntries]
  | cons q as ih =>
    obtain ⟨k, a⟩ := q
    simp only [reachEntries, List.mem_append, ih, List.mem_cons]
    constructor
    · rintro (hm | ⟨p, hp, hm⟩)
      · exact ⟨(k, a), Or.inl rfl, hm⟩
      · exact ⟨p, Or.inr hp, hm⟩
    · rintro ⟨p, hp | hp, hm⟩
      · subst hp
        exact Or.inl hm
      · exact Or.inr ⟨p, hp, hm⟩

theorem reachEntries_congr (rc rc' : Nat → List Nat) :
    ∀ es : List (String × Nat),
    (∀ p ∈ es, rc' p.2 = rc p.2) → reachEntries rc' es = reachEntries rc es := by
  intro es
  induction es with
  | nil =>
    intro _
    rfl
  | cons q as ih =>
    intro hpt
    obtain ⟨k, a⟩ := q
    unfold reachEntries
    rw [hpt (k, a) (List.mem_cons_self _ _),
      ih (fun p hp => hpt p (List.mem_cons_of_mem _ hp))]

/-! ### Read and reach stability -/

theorem get_some_lt {h : Heap} {m : Nat} {c : HObj} (hc : h.get? m = some c) :
    m < h.length := by
  by_contra hge
  rw [List.get?_eq_none.mpr (by omega)] at hc
  cases hc

theorem readObj_mono : ∀ (f f' : Nat), f ≤ f' → ∀ (h : Heap) (a : Nat) (d : Doc),
    readObj f h a = some d → readObj f' h a = some d := by
  intro f
  induction f with
  | zero =>
    intro f' _ h a d hr
    cases hr
  | succ g ih =>
    intro f' hle h a d hr
    obtain ⟨g', rfl⟩ : ∃ g'', f' = g'' + 1 := ⟨f' - 1, by omega⟩
    have hg : g ≤ g' := by omega
    unfold readObj at hr ⊢
    rcases hc : h.get? a with _ | c
    · rw [hc] at hr
      cases hr
    · cases c with
      | hdict es =>
        simp only [hc] at hr ⊢
        rcases h1 : readEntries (readObj g h) es with _ | ds
        · rw [h1] at hr
          cases hr
        · rw [h1] at hr
          rw [readEntries_pt _ _ es ds h1 (fun p _ d hd => ih g' hg h p.2 d hd)]
          exact hr
      | hleaf v =>
        simp only [hc] at hr ⊢
        exact hr

theorem readObj_reach_lt : ∀ (f : Nat) (h : Heap) (a : Nat) (d : Doc),
    readObj f h a = some d → ∀ m ∈ reach f h a, m < h.length := by
  intro f
  induction f with
  | zero =>
    intro h a d hr
    cases hr
  | succ g ih =>
    intro h a d hr m hm
    unfold readObj at hr
    unfold reach at hm
    rcases hc : h.get? a with _ | c
    · rw [hc] at hr
      cases hr
    · rw [hc] at hr hm
      cases c with
      | hdict es =>
        simp only at hr hm
        rcases List.mem_cons.mp hm with he | hm2
        · subst he
          exact get_some_lt hc
        · rcases h1 : readEntries (readObj g h) es with _ | ds
          · rw [h1] at hr
            cases hr
          · obtain ⟨p, hp, hmp⟩ := (reachEntries_mem (reach g h) es m).mp hm2
            obtain ⟨dp, hdp⟩ := readEntries_entry _ es ds h1 p hp
            exact ih h p.2 dp hdp m hmp
      | hleaf v =>
        simp only at hm
        rcases List.mem_cons.mp hm with he | hm2
        · subst he
          exact get_some_lt hc
        · cases hm2

theorem readObj_agree : ∀ (f : Nat) (h h' : Heap) (a : Nat) (d : Doc),
    readObj f h a = some d →
    (∀ m ∈ reach f h a, h'.get? m = h.get? m) →
    readObj f h' a = some d := by
  intro f
  induction f with
  | zero =>
    intro h h' a d hr
    cases hr
  | succ g ih =>
    intro h h' a d hr hag
    unfold readObj at hr ⊢
    have hroot : h'.get? a = h.get? a := by
      refine hag a ?_
      unfold reach
      exact List.mem_cons_self _ _
    rcases hc : h.get? a with _ | c
    · rw [hc] at hr
      cases hr
    · rw [hroot, hc]
      rw [hc] at hr
      cases c with
      | hdict es =>
        simp only at hr ⊢
        rcases h1 : readEntries (readObj g h) es with _ | ds
        · rw [h1] at hr
          cases hr
        · rw [readEntries_pt _ _ es ds h1 ?_]
          · exact h1 ▸ hr
          · intro p hp dp hdp
            refine ih h h' p.2 dp hdp ?_
            intro m hm
            refine hag m ?_
            unfold reach
            rw [hc]
            exact List.mem_cons_of_mem _
              ((reachEntries_mem (reach g h) es m).mpr ⟨p, hp, hm⟩)
      | hleaf v =>
        exact hr

theorem reach_agree : ∀ (f : Nat) (h h' : Heap) (a : Nat),
    (∀ m ∈ reach f h a, h'.get? m = h.get? m) →
    reach f h' a = reach f h a := by
  intro f
  induction f with
  | zero =>
    intro h h' a _
    rfl
  | succ g ih =>
    intro h h' a hag
    have hroot : h'.get? a = h.get? a := by
      refine hag a ?_
      unfold reach
      exact List.mem_cons_self _ _
    unfold reach
    rw [hroot]
    rcases hc : h.get? a with _ | c
    · rfl
    · cases c with
      | hdict es =>
        simp only
        congr 1
        refine reachEntries_congr _ _ es ?_
        intro p hp
        refine ih h h' p.2 ?_
        intro m hm
        refine hag m ?_
        unfold reach
        rw [hc]
        exact List.mem_cons_of_mem _
          ((reachEntries_mem (reach g h) es m).mpr ⟨p, hp, hm⟩)
      | hleaf v =>
        rfl

/-! ### `copyEntries` under assumptions on the child copier -/

theorem copyEntries_extends (cp : Heap → Nat → Option (Heap × Nat))
    (hext : ∀ (hh hh' : Heap) (a r : Nat), cp hh a = some (hh', r) →
      ∃ ext, hh' = hh ++ ext) :
    ∀ (es : List (String × Nat)) (h h' : Heap) (es' : List (String × Nat)),
    copyEntries cp h es = some (h', es') → ∃ ext, h' = h ++ ext := by
  intro es
  induction es with
  | nil =>
    intro h h' es' hc
    cases hc
    exact ⟨[], by simp⟩
  | cons q as ih =>
    intro h h' es' hc
    obtain ⟨k, a⟩ := q
    unfold copyEntries at hc
    rcases h1 : cp h a with _ | ⟨h₁, r⟩
    · rw [h1] at hc
      cases hc
    · rw [h1] at hc
      simp only at hc
      rcases h2 : copyEntries cp h₁ as with _ | ⟨h₂, tl⟩
      · rw [h2] at hc
        cases hc
      · rw [h2] at hc
        cases hc
        obtain ⟨e1, he1⟩ := hext h h₁ a r h1
        obtain ⟨e2, he2⟩ := ih h₁ h' tl h2
        exact ⟨e1 ++ e2, by rw [he2, he1, List.append_assoc]⟩

theorem copyEntries_shape (cp : Heap → Nat → Option (Heap × Nat))
    (hext : ∀ (hh hh' : Heap) (a r : Nat), cp hh a = some (hh', r) →
      ∃ ext, hh' = hh ++ ext)
    (hb : ∀ (hh hh' : Heap) (a r : Nat), cp hh a = some (hh', r) →
      hh.length ≤ r ∧ r < hh'.length) :
    ∀ (es : List (String × Nat)) (h h' : Heap) (es' : List (String × Nat)),
    copyEntries cp h es = some (h', es') →
    es'.map Prod.fst = es.map Prod.fst ∧
    ∀ p ∈ es', h.length ≤ p.2 ∧ p.2 < h'.length := by
  intro es
  induction es with
  | nil =>
    intro h h' es' hc
    cases hc
    exact ⟨rfl, by intro p hp; cases hp⟩
  | cons q as ih =>
    intro h h' es' hc
    obtain ⟨k, a⟩ := q
    unfold copyEntries at hc
    rcases h1 : cp h a with _ | ⟨h₁, r⟩
    · rw [h1] at hc
      cases hc
    · rw [h1] at hc
      simp only at hc
      rcases h2 : copyEntries cp h₁ as with _ | ⟨h₂, tl⟩
      · rw [h2] at hc
        cases hc
      · rw [h2] at hc
        cases hc
        obtain ⟨hk, htl⟩ := ih h₁ h' tl h2
        obtain ⟨hr1, hr2⟩ := hb h h₁ a r h1
        obtain ⟨e1, he1⟩ := hext h h₁ a r h1
        obtain ⟨e2, he2⟩ := copyEntries_extends cp hext as h₁ h' tl h2
        have hlen1 : h.length ≤ h₁.length := by
          rw [he1]
          simp
        have hlen2 : h₁.length ≤ h'.length := by
          rw [he2]
          simp
        refine ⟨by simp [hk], ?_⟩
        intro p hp
        rcases List.mem_cons.mp hp with he | hm
        · subst he
          exact ⟨hr1, by omega⟩
        · obtain ⟨u1, u2⟩ := htl p hm
          exact ⟨by omega, u2⟩

theorem copyEntries_descend (cp : Heap → Nat → Option (Heap × Nat))
    (hext : ∀ (hh hh' : Heap) (a r : Nat), cp hh a = some (hh', r) →
      ∃ ext, hh' = hh ++ ext)
    (hdesc : ∀ (hh hh' : Heap) (a r : Nat), cp hh a = some (hh', r) →
      ∀ (i : Nat) (c : HObj), hh.length ≤ i → hh'.get? i = some c →
      ∀ m ∈ cellRefs c, hh.length ≤ m ∧ m < i) :
    ∀ (es : List (String × Nat)) (h h' : Heap) (es' : List (String × Nat)),
    copyEntries cp h es = some (h', es') →
    ∀ (i : Nat) (c : HObj), h.length ≤ i → h'.get? i = some c →
    ∀ m ∈ cellRefs c, h.length ≤ m ∧ m < i := by
  intro es
  induction es with
  | nil =>
    intro h h' es' hc i c hi hcell m hm
    cases hc
    have := get_some_lt hcell
    omega
  | cons q as ih =>
    intro h h' es' hc i c hi hcell m hm
    obtain ⟨k, a⟩ := q
    unfold copyEntries at hc
    rcases h1 : cp h a with _ | ⟨h₁, r⟩
    · rw [h1] at hc
      cases hc
    · rw [h1] at hc
      simp only at hc
      rcases h2 : copyEntries cp h₁ as with _ | ⟨h₂, tl⟩
      · rw [h2] at hc
        cases hc
      · rw [h2] at hc
        cases hc
        obtain ⟨e1, he1⟩ := hext h h₁ a r h1
        obtain ⟨e2, he2⟩ := copyEntries_extends cp hext as h₁ h' tl h2
        have hlen1 : h.length ≤ h₁.length := by
          rw [he1]
          simp
        by_cases hcase : i < h₁.length
        · have hcell1 : h₁.get? i = some c := by
            rw [he2, List.get?_append hcase] at hcell
            exact hcell
          exact hdesc h h₁ a r h1 i c hi hcell1 m hm
        · have := ih h₁ h' tl h2 i c (by omega) hcell m hm
          exact ⟨by omega, this.2⟩

theorem copyEntries_reach (f : Nat) (cp : Heap → Nat → Option (Heap × Nat))
    (hext : ∀ (hh hh' : Heap) (a r : Nat), cp hh a = some (hh', r) →
      ∃ ext, hh' = hh ++ ext)
    (hreach : ∀ (hh hh' : Heap) (a r : Nat), cp hh a = some (hh', r) →
      ∀ m ∈ reach f hh' r, hh.length ≤ m ∧ m < hh'.length) :
    ∀ (es : List (String × Nat)) (h h' : Heap) (es' : List (String × Nat)),
    copyEntries cp h es = some (h', es') →
    ∀ p ∈ es', ∀ m ∈ reach f h' p.2, h.length ≤ m ∧ m < h'.length := by
  intro es
  induction es with
  | nil =>
    intro h h' es' hc p hp
    cases hc
    cases hp
  | cons q as ih =>
    intro h h' es' hc p hp m hm
    obtain ⟨k, a⟩ := q
    unfold copyEntries at hc
    rcases h1 : cp h a with _ | ⟨h₁, r⟩
    · rw [h1] at hc
      cases hc
    · rw [h1] at hc
      simp only at hc
      rcases h2 : copyEntries cp h₁ as with _ | ⟨h₂, tl⟩
      · rw [h2] at hc
        cases hc
      · rw [h2] at hc
        cases hc
        obtain ⟨e2, he2⟩ := copyEntries_extends cp hext as h₁ h' tl h2
        obtain ⟨e1, he1⟩ := hext h h₁ a r h1
        have hlen1 : h.length ≤ h₁.length := by
          rw [he1]
          simp
        have hlen2 : h₁.length ≤ h'.length := by
          rw [he2]
          simp
        rcases List.mem_cons.mp hp with he | hmem
        · have hb := hreach h h₁ a r h1
          have hagree : ∀ u ∈ reach f h₁ r, h'.get? u = h₁.get? u := by
            intro u hu
            have hu2 : u < h₁.length := (hb u hu).2
            rw [he2]
            exact List.get?_append hu2
          have hm2 : m ∈ reach f h' r := by
            rw [he] at hm
            exact hm
          rw [reach_agree f h₁ h' r hagree] at hm2
          have := hb m hm2
          exact ⟨this.1, by omega⟩
        · have := ih h₁ h' tl h2 p hmem m hm
          exact ⟨by omega, this.2⟩

theorem copyEntries_value (f : Nat) (cp : Heap → Nat → Option (Heap × Nat))
    (hext : ∀ (hh hh' : Heap) (a r : Nat), cp hh a = some (hh', r) →
      ∃ ext, hh' = hh ++ ext)
    (hreach : ∀ (hh hh' : Heap) (a r : Nat), cp hh a = some (hh', r) →
      ∀ m ∈ reach f hh' r, hh.length ≤ m ∧ m < hh'.length)
    (hval : ∀ (hh hh' : Heap) (a r : Nat) (d : Doc), cp hh a = some (hh', r) →
      readObj f hh a = some d → readObj f hh' r = some d) :
    ∀ (es : List (String × Nat)) (h h' : Heap) (es' : List (String × Nat))
      (ds : List (String × Doc)),
    copyEntries cp h es = some (h', es') →
    readEntries (readObj f h) es = some ds →
    readEntries (readObj f h') es' = some ds := by
  intro es
  induction es with
  | nil =>
    intro h h' es' ds hc hr
    cases hc
    exact hr
  | cons q as ih =>
    intro h h' es' ds hc hr
    obtain ⟨k, a⟩ := q
    unfold copyEntries at hc
    unfold readEntries at hr
    rcases hra : readObj f h a with _ | d
    · rw [hra] at hr
      cases hr
    · rcases hrt : readEntries (readObj f h) as with _ | tl
      · rw [hra, hrt] at hr
        cases hr
      · rw [hra, hrt] at hr
        rcases h1 : cp h a with _ | ⟨h₁, r⟩
        · rw [h1] at hc
          cases hc
        · rw [h1] at hc
          simp only at hc
          rcases h2 : copyEntries cp h₁ as with _ | ⟨h₂, tl'⟩
          · rw [h2] at hc
            cases hc
          · rw [h2] at hc
            cases hc
            obtain ⟨e1, he1⟩ := hext h h₁ a r h1
            obtain ⟨e2, he2⟩ := copyEntries_extends cp hext as h₁ h' tl' h2
            -- the head value survives into the final heap
            have hv1 : readObj f h₁ r = some d := hval h h₁ a r d h1 hra
            have hv2 : readObj f h' r = some d := by
              refine readObj_agree f h₁ h' r d hv1 ?_
              intro u hu
              have hu2 : u < h₁.length := (hreach h h₁ a r h1 u hu).2
              rw [he2]
              exact List.get?_append hu2
            -- the tail reads transfer into the extended heap
            have hrt1 : readEntries (readObj f h₁) as = some tl := by
              refine readEntries_pt _ _ as tl hrt ?_
              intro p hp dp hdp
              refine readObj_agree f h h₁ p.2 dp hdp ?_
              intro u hu
              have hu2 : u < h.length := readObj_reach_lt f h p.2 dp hdp u hu
              rw [he1]
              exact List.get?_append hu2
            have := ih h₁ h' tl' tl h2 hrt1
            unfold readEntries
            rw [hv2, this]
            exact hr

theorem copyEntries_success (f : Nat) (cp : Heap → Nat → Option (Heap × Nat))
    (hext : ∀ (hh hh' : Heap) (a r : Nat), cp hh a = some (hh', r) →
      ∃ ext, hh' = hh ++ ext)
    (hsuc : ∀ (hh : Heap) (a : Nat) (d : Doc), readObj f hh a = some d →
      (cp hh a).isSome) :
    ∀ (es : List (String × Nat)) (h : Heap) (ds : List (String × Doc)),
    readEntries (readObj f h) es = some ds →
    (copyEntries cp h es).isSome := by
  intro es
  induction es with
  | nil =>
    intro h ds _
    rfl
  | cons q as ih =>
    intro h ds hr
    obtain ⟨k, a⟩ := q
    unfold readEntries at hr
    rcases hra : readObj f h a with _ | d
    · rw [hra] at hr
      cases hr
    · rcases hrt : readEntries (readObj f h) as with _ | tl
      · rw [hra, hrt] at hr
        cases hr
      · unfold copyEntries
        rcases h1 : cp h a with _ | ⟨h₁, r⟩
        · have := hsuc h a d hra
          rw [h1] at this
          cases this
        · simp only
          obtain ⟨e1, he1⟩ := hext h h₁ a r h1
          have hrt1 : readEntries (readObj f h₁) as = some tl := by
            refine readEntries_pt _ _ as tl hrt ?_
            intro p hp dp hdp
            refine readObj_agree f h h₁ p.2 dp hdp ?_
            intro u hu
            have hu2 : u < h.length := readObj_reach_lt f h p.2 dp hdp u hu
            rw [he1]
            exact List.get?_append hu2
          have := ih h₁ tl hrt1
          rcases h2 : copyEntries cp h₁ as with _ | ⟨h₂, tl'⟩
          · rw [h2] at this
            cases this
          · rfl

/-! ### The `deepcopy` specification -/

/-- Everything `get_resource_info` needs about `deepcopy`: the heap is
only extended (old cells untouched); the new root and every cell and
address reachable from it live in the fresh region, whose cells only point
downwards within the fresh region; the copy reads back to the same
document; and a copy exists whenever the source reads back. -/
theorem deepcopy_spec : ∀ (f : Nat),
    (∀ (h h' : Heap) (a r : Nat), deepcopy f h a = some (h', r) →
      (∃ ext, h' = h ++ ext) ∧
      (h.length ≤ r ∧ r < h'.length) ∧
      (∀ (i : Nat) (c : HObj), h.length ≤ i → h'.get? i = some c →
        ∀ m ∈ cellRefs c, h.length ≤ m ∧ m < i) ∧
      (∀ m ∈ reach f h' r, h.length ≤ m ∧ m < h'.length) ∧
      (∀ d, readObj f h a = some d → readObj f h' r = some d)) ∧
    (∀ (h : Heap) (a : Nat) (d : Doc), readObj f h a = some d →
      (deepcopy f h a).isSome) := by
  intro f
  induction f with
  | zero =>
    constructor
    · intro h h' a r hd
      cases hd
    · intro h a d hr
      cases hr
  | succ g ih =>
    obtain ⟨ihS, ihSuc⟩ := ih
    have hext : ∀ (hh hh' : Heap) (a r : Nat), deepcopy g hh a = some (hh', r) →
        ∃ ext, hh' = hh ++ ext :=
      fun hh hh' a r hd => (ihS hh hh' a r hd).1
    have hb : ∀ (hh hh' : Heap) (a r : Nat), deepcopy g hh a = some (hh', r) →
        hh.length ≤ r ∧ r < hh'.length :=
      fun hh hh' a r hd => (ihS hh hh' a r hd).2.1
    have hdesc : ∀ (hh hh' : Heap) (a r : Nat), deepcopy g hh a = some (hh', r) →
        ∀ (i : Nat) (c : HObj), hh.length ≤ i → hh'.get? i = some c →
        ∀ m ∈ cellRefs c, hh.length ≤ m ∧ m < i :=
      fun hh hh' a r hd => (ihS hh hh' a r hd).2.2.1
    have hreach : ∀ (hh hh' : Heap) (a r : Nat), deepcopy g hh a = some (hh', r) →
        ∀ m ∈ reach g hh' r, hh.length ≤ m ∧ m < hh'.length :=
      fun hh hh' a r hd => (ihS hh hh' a r hd).2.2.2.1
    have hval : ∀ (hh hh' : Heap) (a r : Nat) (d : Doc),
        deepcopy g hh a = some (hh', r) →
        readObj g hh a = some d → readObj g hh' r = some d :=
      fun hh hh' a r d hd hr => (ihS hh hh' a r hd).2.2.2.2 d hr
    constructor
    · intro h h' a r hd
      unfold deepcopy at hd
      rcases hc : h.get? a with _ | c
      · rw [hc] at hd
        cases hd
      · cases c with
        | hleaf v =>
          simp only [hc] at hd
          cases hd
          refine ⟨⟨[HObj.hleaf v], rfl⟩, ⟨le_refl _, by simp⟩, ?_, ?_, ?_⟩
          · intro i c hi hcell m hm
            have hlt := get_some_lt hcell
            simp only [List.length_append, List.length_cons, List.length_nil] at hlt
            have hieq : i = h.length := by omega
            subst hieq
            rw [List.get?_concat_length] at hcell
            injection hcell with hcell
            subst hcell
            cases hm
          · intro m hm
            unfold reach at hm
            rw [List.get?_concat_length] at hm
            simp only at hm
            rcases List.mem_cons.mp hm with he | hm2
            · subst he
              simp
            · cases hm2
          · intro d hr
            unfold readObj at hr ⊢
            rw [hc] at hr
            rw [List.get?_concat_length]
            exact hr
        | hdict es =>
          simp only [hc] at hd
          rcases hce : copyEntries (deepcopy g) h es with _ | ⟨h₁, es'⟩
          · rw [hce] at hd
            cases hd
          · rw [hce] at hd
            cases hd
            obtain ⟨ext1, hext1⟩ := copyEntries_extends _ hext es h h₁ es' hce
            have hlen1 : h.length ≤ h₁.length := by
              rw [hext1]
              simp
            obtain ⟨hkeys, hroots⟩ := copyEntries_shape _ hext hb es h h₁ es' hce
            have hreach1 := copyEntries_reach g _ hext hreach es h h₁ es' hce
            -- entry reaches are stable when the parent cell is appended
            have hragree : ∀ p ∈ es', reach g (h₁ ++ [HObj.hdict es']) p.2 =
                reach g h₁ p.2 := by
              intro p hp
              refine reach_agree g h₁ _ p.2 ?_
              intro u hu
              have hu2 : u < h₁.length := (hreach1 p hp u hu).2
              exact List.get?_append hu2
            refine ⟨⟨ext1 ++ [HObj.hdict es'], by rw [hext1, List.append_assoc]⟩,
              ⟨hlen1, by simp⟩, ?_, ?_, ?_⟩
            · intro i c hi hcell m hm
              have hlt := get_some_lt hcell
              simp only [List.length_append, List.length_cons, List.length_nil] at hlt
              by_cases hcase : i < h₁.length
              · rw [List.get?_append hcase] at hcell
                exact copyEntries_descend _ hext hdesc es h h₁ es' hce i c hi hcell m hm
              · have hieq : i = h₁.length := by omega
                subst hieq
                rw [List.get?_concat_length] at hcell
                injection hcell with hcell
                subst hcell
                simp only [cellRefs, List.mem_map] at hm
                obtain ⟨p, hp, hpm⟩ := hm
                have := hroots p hp
                omega
            · intro m hm
              unfold reach at hm
              rw [List.get?_concat_length] at hm
              simp only at hm
              rcases List.mem_cons.mp hm with he | hm2
              · subst he
                constructor
                · exact hlen1
                · simp
              · obtain ⟨p, hp, hpm⟩ := (reachEntries_mem _ es' m).mp hm2
                rw [hragree p hp] at hpm
                have := hreach1 p hp m hpm
                constructor
                · exact this.1
                · simp only [List.length_append, List.length_cons, List.length_nil]
                  omega
            · intro d hr
              unfold readObj at hr ⊢
              rw [hc] at hr
              simp only at hr
              rw [List.get?_concat_length]
              simp only
              rcases hds : readEntries (readObj g h) es with _ | ds
              · rw [hds] at hr
                cases hr
              · rw [hds] at hr
                have hv1 := copyEntries_value g _ hext hreach hval es h h₁ es' ds hce hds
                have hv2 : readEntries (readObj g (h₁ ++ [HObj.hdict es'])) es' = some ds := by
                  refine readEntries_pt _ _ es' ds hv1 ?_
                  intro p hp dp hdp
                  refine readObj_agree g h₁ _ p.2 dp hdp ?_
                  intro u hu
                  have hu2 : u < h₁.length := (hreach1 p hp u hu).2
                  exact List.get?_append hu2
                rw [hv2]
                exact hr
    · intro h a d hr
      unfold readObj at hr
      rcases hc : h.get? a with _ | c
      · rw [hc] at hr
        cases hr
      · cases c with
        | hleaf v =>
          unfold deepcopy
          rw [hc]
          rfl
        | hdict es =>
          rw [hc] at hr
          simp only at hr
          rcases hds : readEntries (readObj g h) es with _ | ds
          · rw [hds] at hr
            cases hr
          · have := copyEntries_success g _ hext ihSuc es h ds hds
            unfold deepcopy
            rw [hc]
            simp only
            rcases hce : copyEntries (deepcopy g) h es with _ | ⟨h₁, es'⟩
            · rw [hce] at this
              simp at this
            · rfl

/-! ### Consequences used by `get_resource_info` -/

/-- Reads are stable under extending the heap. -/
theorem readObj_append (f : Nat) (h ext : Heap) (a : Nat) (d : Doc)
    (hr : readObj f h a = some d) : readObj f (h ++ ext) a = some d := by
  refine readObj_agree f h (h ++ ext) a d hr ?_
  intro m hm
  exact List.get?_append (readObj_reach_lt f h a d hr m hm)

/-- In a region whose cells only point downwards within the region, a
read starting inside the region stays inside it and below its start, at
every fuel. -/
theorem descend_reach_le (base : Nat) (h : Heap)
    (hd : ∀ (i : Nat) (c : HObj), base ≤ i → h.get? i = some c →
      ∀ m ∈ cellRefs c, base ≤ m ∧ m < i) :
    ∀ (f s : Nat), base ≤ s → ∀ m ∈ reach f h s, base ≤ m ∧ m ≤ s := by
  intro f
  induction f with
  | zero =>
    intro s _ m hm
    cases hm
  | succ g ih =>
    intro s hs m hm
    unfold reach at hm
    rcases List.mem_cons.mp hm with he | hm2
    · subst he
      exact ⟨hs, le_refl _⟩
    · rcases hc : h.get? s with _ | c
      · rw [hc] at hm2
        simp only at hm2
        cases hm2
      · rw [hc] at hm2
        cases c with
        | hdict es =>
          simp only at hm2
          obtain ⟨q, hq, hmq⟩ := (reachEntries_mem (reach g h) es m).mp hm2
          have href := hd s _ hs hc q.2 (by
            simp only [cellRefs, List.mem_map]
            exact ⟨q, hq, rfl⟩)
          have := ih q.2 href.1 m hmq
          exact ⟨this.1, by omega⟩
        | hleaf v =>
          simp only at hm2
          cases hm2

/-- Membership after a `dictSet`. -/
theorem mem_dictSet (es : List (String × α)) (k : String) (v : α) :
    ∀ q ∈ dictSet es k v, q ∈ es ∨ q = (k, v) := by
  induction es with
  | nil =>
    intro q hq
    simp only [dictSet] at hq
    rcases List.mem_cons.mp hq with he | h0
    · exact Or.inr he
    · cases h0
  | cons p rest ih =>
    intro q hq
    obtain ⟨k', v'⟩ := p
    simp only [dictSet] at hq
    by_cases hk : k' = k
    · rw [if_pos hk] at hq
      rcases List.mem_cons.mp hq with he | hm
      · exact Or.inr he
      · exact Or.inl (List.mem_cons_of_mem _ hm)
    · rw [if_neg hk] at hq
      rcases List.mem_cons.mp hq with he | hm
      · subst he
        exact Or.inl (List.mem_cons_self _ _)
      · rcases ih q hm with h1 | h2
        · exact Or.inl (List.mem_cons_of_mem _ h1)
        · exact Or.inr h2

/-- Reading a dict after `d[k] = a` yields the value-level `dictSet`. -/
theorem readEntries_dictSet (rd : Nat → Option Doc) :
    ∀ (es : List (String × Nat)) (ds : List (String × Doc)) (k : String)
      (a : Nat) (d : Doc),
    readEntries rd es = some ds → rd a = some d →
    readEntries rd (dictSet es k a) = some (dictSet ds k d) := by
  intro es
  induction es with
  | nil =>
    intro ds k a d h ha
    cases h
    simp only [dictSet]
    unfold readEntries
    rw [ha]
    rfl
  | cons p tl ih =>
    intro ds k a d h ha
    obtain ⟨k', a'⟩ := p
    unfold readEntries at h
    rcases h1 : rd a' with _ | d'
    · rw [h1] at h
      cases h
    · rcases h2 : readEntries rd tl with _ | tl'
      · rw [h1, h2] at h
        cases h
      · rw [h1, h2] at h
        simp only at h
        cases h
        by_cases hk : k' = k
        · simp only [dictSet, if_pos hk]
          unfold readEntries
          rw [ha, h2]
        · simp only [dictSet, if_neg hk]
          unfold readEntries
          rw [h1, ih tl' k a d h2 ha]

/-! ### `_ResourcePool.get_resource_info` over the heap -/

/-- The pool with its configurations in the explicit heap: `resources`
maps a resource id to the heap address of that resource's
`resource_config` dict, `pool_config_ref` is the address of the pool's
own `pool_config` dict. -/
structure HPool where
  heap : Heap
  resources : List (String × Nat)
  pool_config_ref : Nat
  deriving DecidableEq

namespace HPool

/-- Source `pool.py` 165-174: `config = deepcopy(resource.resource_config)`
and, when verbose, `config["meta"]["pool"] = deepcopy(self.pool_config)`
(the assignment evaluates its right-hand side first, then looks up
`config["meta"]` and sets its `"pool"` key in place).  The call returns
the address of the copied config along with the grown heap; a missing
resource, a missing or non-dict `meta`, or exhausted fuel gives `none`
(python raises there). -/
def get_resource_info (fuel : Nat) (p : HPool) (resource_id : String)
    (verbose : Bool) : Option (HPool × Nat) :=
  match p.resources.lookup resource_id with
  | none => none
  | some a =>
    match deepcopy fuel p.heap a with
    | none => none
    | some (h', r) =>
      if verbose then
        match deepcopy fuel h' p.pool_config_ref with
        | none => none
        | some (h'', pr) =>
          match h''.get? r with
          | some (.hdict es) =>
            match es.lookup "meta" with
            | none => none
            | some mref =>
              match h''.get? mref with
              | some (.hdict mes) =>
                some ({ p with heap := h''.set mref (HObj.hdict (dictSet mes "pool" pr)) }, r)
              | _ => none
          | _ => none
      else
        some ({ p with heap := h' }, r)

end HPool

/-- C9: `get_resource_info(resource_id, verbose)` returns a deep copy of
the resource's configuration: the non-verbose call reads back exactly the
stored config; the verbose call reads back the same document except that
`meta.pool` is set to the pool's own config; the stored resource and pool
configurations read back unchanged after either call, the returned
document lives entirely in freshly allocated cells, and overwriting any
fresh cell (a later mutation of the returned document) leaves the stored
configurations unchanged. -/
theorem C9_get_resource_info
    (f : Nat) (p : HPool) (rid : String) (a am asr : Nat)
    (mds : List (String × Doc)) (sd pd : Doc)
    (hres : p.resources.lookup rid = some a)
    (hcellA : p.heap.get? a = some (.hdict [("meta", am), ("spec", asr)]))
    (hm : readObj f p.heap am = some (.dict mds))
    (hs : readObj f p.heap asr = some sd)
    (hp : readObj f p.heap p.pool_config_ref = some pd) :
    (∃ (h₀ : Heap) (r₀ : Nat),
      HPool.get_resource_info (f+1) p rid false = some ({ p with heap := h₀ }, r₀) ∧
      (∃ ext, h₀ = p.heap ++ ext) ∧
      p.heap.length ≤ r₀ ∧
      readObj (f+1) h₀ r₀ = some (.dict [("meta", .dict mds), ("spec", sd)]) ∧
      (∀ m ∈ reach (f+1) h₀ r₀, p.heap.length ≤ m)) ∧
    (∃ (h₃ : Heap) (r : Nat),
      HPool.get_resource_info (f+1) p rid true = some ({ p with heap := h₃ }, r) ∧
      p.heap.length ≤ r ∧
      readObj (f+3) h₃ r =
        some (.dict [("meta", .dict (dictSet mds "pool" pd)), ("spec", sd)]) ∧
      readObj (f+1) h₃ a = some (.dict [("meta", .dict mds), ("spec", sd)]) ∧
      readObj f h₃ p.pool_config_ref = some pd ∧
      (∀ m ∈ reach (f+3) h₃ r, p.heap.length ≤ m) ∧
      (∀ m, p.heap.length ≤ m → ∀ o,
        readObj (f+1) (h₃.set m o) a = some (.dict [("meta", .dict mds), ("spec", sd)]) ∧
        readObj f (h₃.set m o) p.pool_config_ref = some pd)) := by
  cases f with
  | zero => cases hm
  | succ g =>
    obtain ⟨dsp, dsu⟩ := deepcopy_spec (g+1)
    obtain ⟨dsp1, dsu1⟩ := deepcopy_spec (g+2)
    obtain ⟨⟨hA, am'⟩, hcpA⟩ := Option.isSome_iff_exists.mp (dsu p.heap am _ hm)
    have specA := dsp p.heap hA am am' hcpA
    obtain ⟨extA, hextA⟩ := specA.1
    have hbA := specA.2.1
    have hdescA := specA.2.2.1
    have hmA : readObj (g+1) hA am' = some (.dict mds) := specA.2.2.2.2 _ hm
    have hlenA : p.heap.length ≤ hA.length := by
      rw [hextA]
      simp
    have hsA : readObj (g+1) hA asr = some sd := by
      rw [hextA]
      exact readObj_append _ _ _ _ _ hs
    obtain ⟨⟨hB, as'⟩, hcpB⟩ := Option.isSome_iff_exists.mp (dsu hA asr _ hsA)
    have specB := dsp hA hB asr as' hcpB
    obtain ⟨extB, hextB⟩ := specB.1
    have hbB := specB.2.1
    have hdescB := specB.2.2.1
    have hsB : readObj (g+1) hB as' = some sd := specB.2.2.2.2 _ hsA
    have hlenB : hA.length ≤ hB.length := by
      rw [hextB]
      simp
    have hbigB : hB = p.heap ++ (extA ++ extB) := by
      rw [hextB, hextA, List.append_assoc]
    have hce1 : copyEntries (deepcopy (g+1)) hA [("spec", asr)] =
        some (hB, [("spec", as')]) := by
      unfold copyEntries
      rw [hcpB]
      rfl
    have hce : copyEntries (deepcopy (g+1)) p.heap [("meta", am), ("spec", asr)] =
        some (hB, [("meta", am'), ("spec", as')]) := by
      unfold copyEntries
      rw [hcpA]
      simp only
      rw [hce1]
    have hcpFull : deepcopy (g+2) p.heap a =
        some (hB ++ [HObj.hdict [("meta", am'), ("spec", as')]], hB.length) := by
      unfold deepcopy
      rw [hcellA]
      simp only
      rw [hce]
    have hre2 : readEntries (readObj (g+1) p.heap) [("spec", asr)] =
        some [("spec", sd)] := by
      unfold readEntries
      rw [hs]
      rfl
    have hre1 : readEntries (readObj (g+1) p.heap) [("meta", am), ("spec", asr)] =
        some [("meta", .dict mds), ("spec", sd)] := by
      unfold readEntries
      rw [hm, hre2]
    have hreadA : readObj (g+2) p.heap a =
        some (.dict [("meta", .dict mds), ("spec", sd)]) := by
      unfold readObj
      rw [hcellA]
      simp only
      rw [hre1]
      rfl
    have specFull := dsp1 p.heap
      (hB ++ [HObj.hdict [("meta", am'), ("spec", as')]]) a hB.length hcpFull
    have hreachFull := specFull.2.2.2.1
    have hgriF : HPool.get_resource_info (g+2) p rid false =
        some ({ p with heap := hB ++ [HObj.hdict [("meta", am'), ("spec", as')]] },
          hB.length) := by
      unfold HPool.get_resource_info
      rw [hres]
      simp only
      rw [hcpFull]
      simp only
      rw [if_neg Bool.false_ne_true]
    -- the pool-config copy of the verbose branch
    have hp1 : readObj (g+2) p.heap p.pool_config_ref = some pd :=
      readObj_mono (g+1) (g+2) (Nat.le_succ _) _ _ _ hp
    have hp' : readObj (g+2) (hB ++ [HObj.hdict [("meta", am'), ("spec", as')]])
        p.pool_config_ref = some pd := by
      rw [hbigB, List.append_assoc]
      exact readObj_append _ _ _ _ _ hp1
    obtain ⟨⟨h'', pr⟩, hcpP⟩ := Option.isSome_iff_exists.mp (dsu1 _ _ _ hp')
    have specP := dsp1 _ h'' p.pool_config_ref pr hcpP
    obtain ⟨ext2, hext2⟩ := specP.1
    have hbP := specP.2.1
    have hreachP := specP.2.2.2.1
    have hpP : readObj (g+2) h'' pr = some pd := specP.2.2.2.2 _ hp'
    have hlen'' : hB.length + 1 ≤ h''.length := by
      rw [hext2]
      simp only [List.length_append, List.length_cons, List.length_nil]
      omega
    have hbig'' : h'' = hA ++ (extB ++
        ([HObj.hdict [("meta", am'), ("spec", as')]] ++ ext2)) := by
      rw [hext2, hextB]
      simp [List.append_assoc]
    have hbigH : h'' = p.heap ++ (extA ++ (extB ++
        ([HObj.hdict [("meta", am'), ("spec", as')]] ++ ext2))) := by
      rw [hext2, hextB, hextA]
      simp [List.append_assoc]
    have hbigB'' : h'' = hB ++
        ([HObj.hdict [("meta", am'), ("spec", as')]] ++ ext2) := by
      rw [hext2]
      simp [List.append_assoc]
    have hcellR'' : h''.get? hB.length =
        some (HObj.hdict [("meta", am'), ("spec", as')]) := by
      rw [hext2]
      have h1 : hB.length < (hB ++ [HObj.hdict [("meta", am'), ("spec", as')]]).length := by
        simp
      rw [List.get?_append h1]
      exact List.get?_concat_length _ _
    -- the meta cell of the copy
    have hmetacell : ∃ mes, hA.get? am' = some (HObj.hdict mes) ∧
        readEntries (readObj g hA) mes = some mds := by
      unfold readObj at hmA
      rcases hc : hA.get? am' with _ | c
      · rw [hc] at hmA
        cases hmA
      · rw [hc] at hmA
        cases c with
        | hdict mes =>
          simp only at hmA
          rcases hre : readEntries (readObj g hA) mes with _ | ds0
          · rw [hre] at hmA
            cases hmA
          · rw [hre] at hmA
            simp only [Option.map] at hmA
            injection hmA with h1
            injection h1 with h2
            subst h2
            exact ⟨mes, rfl, hre⟩
        | hleaf v =>
          simp only at hmA
          injection hmA with h1
          cases v <;> cases h1
    obtain ⟨mes, hcellM, hreM⟩ := hmetacell
    have hcellM'' : h''.get? am' = some (HObj.hdict mes) := by
      rw [hbig'']
      rw [List.get?_append hbA.2]
      exact hcellM
    have hmesrefs : ∀ q ∈ mes, p.heap.length ≤ q.2 ∧ q.2 < am' := by
      intro q hq
      refine hdescA am' _ hbA.1 hcellM q.2 ?_
      simp only [cellRefs, List.mem_map]
      exact ⟨q, hq, rfl⟩
    -- the verbose call
    have hgriT : HPool.get_resource_info (g+2) p rid true =
        some ({ p with heap := h''.set am' (HObj.hdict (dictSet mes "pool" pr)) }, hB.length) := by
      unfold HPool.get_resource_info
      rw [hres]
      simp only
      rw [hcpFull]
      simp only
      rw [hcpP]
      simp only
      rw [hcellR'']
      simp only
      have hlook : List.lookup "meta" [("meta", am'), ("spec", as')] = some am' := rfl
      rw [hlook]
      simp only
      rw [hcellM'']
      simp only [if_true]
    -- cells of the mutated heap
    have hamh'' : am' < h''.length := by
      have h1 := hbA.2
      omega
    have hcellR₃ : (h''.set am' (HObj.hdict (dictSet mes "pool" pr))).get? hB.length =
        some (HObj.hdict [("meta", am'), ("spec", as')]) := by
      have hne : am' ≠ hB.length := by
        have h1 := hbA.2
        omega
      rw [List.get?_set_ne _ _ hne]
      exact hcellR''
    have hcellM₃ : (h''.set am' (HObj.hdict (dictSet mes "pool" pr))).get? am' =
        some (HObj.hdict (dictSet mes "pool" pr)) :=
      List.get?_set_eq_of_lt _ hamh''
    have hlow : ∀ u, u < hA.length → u ≠ am' →
        (h''.set am' (HObj.hdict (dictSet mes "pool" pr))).get? u = hA.get? u := by
      intro u hu hne
      rw [List.get?_set_ne _ _ (Ne.symm hne)]
      rw [hbig'']
      exact List.get?_append hu
    have hq_agree : ∀ (F : Nat), ∀ q ∈ mes, ∀ u ∈ reach F hA q.2,
        (h''.set am' (HObj.hdict (dictSet mes "pool" pr))).get? u = hA.get? u := by
      intro F q hq u hu
      have hb1 := descend_reach_le p.heap.length hA hdescA F q.2 (hmesrefs q hq).1 u hu
      have h2 := (hmesrefs q hq).2
      refine hlow u (by omega) (by omega)
    have hpool_agree : ∀ u ∈ reach (g+2) h'' pr,
        (h''.set am' (HObj.hdict (dictSet mes "pool" pr))).get? u = h''.get? u := by
      intro u hu
      have hb2 := hreachP u hu
      have hb2' : hB.length + 1 ≤ u := by
        have h1 := hb2.1
        simp only [List.length_append, List.length_cons, List.length_nil] at h1
        omega
      have hne : am' ≠ u := by
        have h1 := hbA.2
        omega
      exact List.get?_set_ne _ _ hne
    have hspec_agree : ∀ (F : Nat), ∀ u ∈ reach F hB as',
        (h''.set am' (HObj.hdict (dictSet mes "pool" pr))).get? u = hB.get? u := by
      intro F u hu
      have hb3 := descend_reach_le hA.length hB hdescB F as' hbB.1 u hu
      have hne : am' ≠ u := by
        have h1 := hbA.2
        omega
      have hult : u < hB.length := by
        have h1 := hbB.2
        omega
      rw [List.get?_set_ne _ _ hne]
      rw [hbigB'']
      exact List.get?_append hult
    -- value of the verbose result
    have hreM₃ : readEntries
        (readObj (g+2) (h''.set am' (HObj.hdict (dictSet mes "pool" pr)))) mes =
        some mds := by
      refine readEntries_pt _ _ mes mds hreM ?_
      intro q hq dq hdq
      have h1 := readObj_agree g hA _ q.2 dq hdq (hq_agree g q hq)
      exact readObj_mono g (g+2) (by omega) _ _ _ h1
    have hprP₃ : readObj (g+2) (h''.set am' (HObj.hdict (dictSet mes "pool" pr))) pr =
        some pd :=
      readObj_agree (g+2) h'' _ pr pd hpP hpool_agree
    have hreSet : readEntries
        (readObj (g+2) (h''.set am' (HObj.hdict (dictSet mes "pool" pr))))
        (dictSet mes "pool" pr) = some (dictSet mds "pool" pd) :=
      readEntries_dictSet _ mes mds "pool" pr pd hreM₃ hprP₃
    have hmeta₃ : readObj (g+3) (h''.set am' (HObj.hdict (dictSet mes "pool" pr))) am' =
        some (.dict (dictSet mds "pool" pd)) := by
      unfold readObj
      rw [hcellM₃]
      simp only
      rw [hreSet]
      rfl
    have hspec₃ : readObj (g+3) (h''.set am' (HObj.hdict (dictSet mes "pool" pr))) as' =
        some sd := by
      have h1 : readObj (g+1) (h''.set am' (HObj.hdict (dictSet mes "pool" pr))) as' =
          some sd :=
        readObj_agree (g+1) hB _ as' sd hsB (hspec_agree (g+1))
      exact readObj_mono (g+1) (g+3) (by omega) _ _ _ h1
    have hroot₃ : readObj (g+4) (h''.set am' (HObj.hdict (dictSet mes "pool" pr)))
        hB.length =
        some (.dict [("meta", .dict (dictSet mds "pool" pd)), ("spec", sd)]) := by
      have hre4 : readEntries
          (readObj (g+3) (h''.set am' (HObj.hdict (dictSet mes "pool" pr))))
          [("spec", as')] = some [("spec", sd)] := by
        unfold readEntries
        rw [hspec₃]
        rfl
      have hre3 : readEntries
          (readObj (g+3) (h''.set am' (HObj.hdict (dictSet mes "pool" pr))))
          [("meta", am'), ("spec", as')] =
          some [("meta", .dict (dictSet mds "pool" pd)), ("spec", sd)] := by
        unfold readEntries
        rw [hmeta₃, hre4]
      unfold readObj
      rw [hcellR₃]
      simp only
      rw [hre3]
      rfl
    -- the stored configurations are untouched
    have hlowAll : ∀ u, u < p.heap.length →
        (h''.set am' (HObj.hdict (dictSet mes "pool" pr))).get? u = p.heap.get? u := by
      intro u hu
      have hne : am' ≠ u := by
        have h1 := hbA.1
        omega
      rw [List.get?_set_ne _ _ hne]
      rw [hbigH]
      exact List.get?_append hu
    have hframeA : readObj (g+2) (h''.set am' (HObj.hdict (dictSet mes "pool" pr))) a =
        some (.dict [("meta", .dict mds), ("spec", sd)]) := by
      refine readObj_agree (g+2) p.heap _ a _ hreadA ?_
      intro u hu
      exact hlowAll u (readObj_reach_lt (g+2) p.heap a _ hreadA u hu)
    have hframeP : readObj (g+1) (h''.set am' (HObj.hdict (dictSet mes "pool" pr)))
        p.pool_config_ref = some pd := by
      refine readObj_agree (g+1) p.heap _ _ _ hp ?_
      intro u hu
      exact hlowAll u (readObj_reach_lt (g+1) p.heap _ _ hp u hu)
    -- freshness of the returned document
    have hfresh : ∀ m ∈ reach (g+4) (h''.set am' (HObj.hdict (dictSet mes "pool" pr)))
        hB.length, p.heap.length ≤ m := by
      intro m hm2
      unfold reach at hm2
      rw [hcellR₃] at hm2
      simp only at hm2
      rcases List.mem_cons.mp hm2 with he | hm3
      · subst he
        omega
      · obtain ⟨q, hq, hmq⟩ := (reachEntries_mem _ _ m).mp hm3
        rcases List.mem_cons.mp hq with he1 | hq2
        · -- the meta entry
          subst he1
          unfold reach at hmq
          rw [hcellM₃] at hmq
          simp only at hmq
          rcases List.mem_cons.mp hmq with he2 | hm4
          · subst he2
            exact hbA.1
          · obtain ⟨q2, hq2, hmq2⟩ := (reachEntries_mem _ _ m).mp hm4
            rcases mem_dictSet mes "pool" pr q2 hq2 with hin | heq
            · rw [reach_agree (g+2) hA _ q2.2 (hq_agree (g+2) q2 hin)] at hmq2
              have := descend_reach_le p.heap.length hA hdescA (g+2) q2.2
                (hmesrefs q2 hin).1 m hmq2
              exact this.1
            · subst heq
              rw [reach_agree (g+2) h'' _ pr hpool_agree] at hmq2
              have h1 := (hreachP m hmq2).1
              simp only [List.length_append, List.length_cons, List.length_nil] at h1
              omega
        · rcases List.mem_cons.mp hq2 with he1 | hq3
          · -- the spec entry
            subst he1
            rw [reach_agree (g+3) hB _ as' (hspec_agree (g+3))] at hmq
            have := descend_reach_le hA.length hB hdescB (g+3) as' hbB.1 m hmq
            omega
          · cases hq3
    -- mutation immunity for fresh cells
    have himm : ∀ m0, p.heap.length ≤ m0 → ∀ o,
        readObj (g+2) ((h''.set am' (HObj.hdict (dictSet mes "pool" pr))).set m0 o) a =
          some (.dict [("meta", .dict mds), ("spec", sd)]) ∧
        readObj (g+1) ((h''.set am' (HObj.hdict (dictSet mes "pool" pr))).set m0 o)
          p.pool_config_ref = some pd := by
      intro m0 hm0 o
      have hlowSet : ∀ u, u < p.heap.length →
          ((h''.set am' (HObj.hdict (dictSet mes "pool" pr))).set m0 o).get? u =
            p.heap.get? u := by
        intro u hu
        rw [List.get?_set_ne _ _ (by omega : m0 ≠ u)]
        exact hlowAll u hu
      constructor
      · refine readObj_agree (g+2) p.heap _ a _ hreadA ?_
        intro u hu
        exact hlowSet u (readObj_reach_lt (g+2) p.heap a _ hreadA u hu)
      · refine readObj_agree (g+1) p.heap _ _ _ hp ?_
        intro u hu
        exact hlowSet u (readObj_reach_lt (g+1) p.heap _ _ hp u hu)
    refine ⟨⟨hB ++ [HObj.hdict [("meta", am'), ("spec", as')]], hB.length,
      hgriF, ?_, ?_, ?_, ?_⟩,
      ⟨h''.set am' (HObj.hdict (dictSet mes "pool" pr)), hB.length,
      hgriT, ?_, hroot₃, hframeA, hframeP, hfresh, himm⟩⟩
    · exact ⟨(extA ++ extB) ++ [HObj.hdict [("meta", am'), ("spec", as')]],
        by rw [hbigB, List.append_assoc]⟩
    · omega
    · exact specFull.2.2.2.2 _ hreadA
    · intro m hm2
      exact (hreachFull m hm2).1
    · omega

def exPoolHeap : Heap :=
  [HObj.hdict [], HObj.hleaf (.strv "raw"), HObj.hdict [("meta", 0), ("spec", 1)],
   HObj.hleaf (.strv "dirpool")]

def exHPool : HPool :=
  { heap := exPoolHeap, resources := [("r1", 2)], pool_config_ref := 3 }

/-- C9 witness: a pool owning resource `r1` whose config dict
`{meta: {}, spec: "raw"}` sits at address 2 and whose own config is the
leaf at address 3; both `get_resource_info` calls succeed with the stated
copies, frames and freshness. -/
theorem C9_get_resource_info_witness :
    exHPool.resources.lookup "r1" = some 2 ∧
    ((∃ (h₀ : Heap) (r₀ : Nat),
      HPool.get_resource_info 2 exHPool "r1" false = some ({ exHPool with heap := h₀ }, r₀) ∧
      (∃ ext, h₀ = exHPool.heap ++ ext) ∧
      exHPool.heap.length ≤ r₀ ∧
      readObj 2 h₀ r₀ = some (.dict [("meta", .dict []), ("spec", .str "raw")]) ∧
      (∀ m ∈ reach 2 h₀ r₀, exHPool.heap.length ≤ m)) ∧
    (∃ (h₃ : Heap) (r : Nat),
      HPool.get_resource_info 2 exHPool "r1" true = some ({ exHPool with heap := h₃ }, r) ∧
      exHPool.heap.length ≤ r ∧
      readObj 4 h₃ r =
        some (.dict [("meta", .dict (dictSet [] "pool" (.str "dirpool"))),
          ("spec", .str "raw")]) ∧
      readObj 2 h₃ 2 = some (.dict [("meta", .dict []), ("spec", .str "raw")]) ∧
      readObj 1 h₃ exHPool.pool_config_ref = some (.str "dirpool") ∧
      (∀ m ∈ reach 4 h₃ r, exHPool.heap.length ≤ m) ∧
      (∀ m, exHPool.heap.length ≤ m → ∀ o,
        readObj 2 (h₃.set m o) 2 = some (.dict [("meta", .dict []), ("spec", .str "raw")]) ∧
        readObj 1 (h₃.set m o) exHPool.pool_config_ref = some (.str "dirpool")))) :=
  ⟨rfl, C9_get_resource_info 1 exHPool "r1" 2 0 1 [] (.str "raw") (.str "dirpool")
    rfl rfl rfl rfl rfl⟩

end AvocadoVT
